import Mathlib

/-!
# JointSet: registering joints from ground outward

A shallow embedding of `JointSet::invokeAddToSystem` and
`JointSet::addToSystemForOneJoint` (OpenSim/Simulation/Model/JointSet.cpp),
followed by theorems about the order in which joints are registered.

* A body is identified by a natural number (the source compares `Body*`).
* A joint is the pair of its parent body and its child body.
* The joint set is the list of its joints, in storage order.
* `std::map<Body*, int>` is a finite map, embedded as a function into `Option`.
* `vector<bool> hasProcessed` is a list of booleans.
* Joint indices are natural numbers: the `int` indices of the source are loop
  counters and map entries, never negative; an index outside the vector or the
  set is the fault `outOfRange`.
* The effect on the multibody system is the log of `addToSystem` calls; the
  log of calls of the walker itself is kept beside it.
-/

namespace JointSet

/-! ## Data model -/

/-- Identity of a body: the source keys its map by the address of the body. -/
abbrev Body := Nat

/-- A joint, reduced to what the registration pass reads: `updParentBody()`
and `updBody()` (the child body). -/
structure Joint where
  parentBody : Body
  body : Body
deriving DecidableEq

/-- The `map<Body*, int>` of the source. -/
abbrev BodyMap := Body → Option Nat

/-- The empty map, `map<Body*, int> bodyMap;`. -/
def BodyMap.empty : BodyMap := fun _ => none

/-- The assignment `bodyMap[b] = i`: inserts the key or overwrites its entry. -/
def BodyMap.assign (m : BodyMap) (b : Body) (i : Nat) : BodyMap :=
  fun x => if x = b then some i else m x

/-- The lookup `bodyMap.find(b)`; `none` stands for `bodyMap.end()`. -/
def BodyMap.find (m : BodyMap) (b : Body) : Option Nat := m b

/-- Ways in which a call can fail to return normally. `outOfFuel` belongs to
the embedding only (the recursion is cut after a given number of nested
frames); `outOfRange` is an index outside `[0, getSize())`;
`registrationFailure k` is `addToSystem` of joint `k` raising. -/
inductive Fault where
  | outOfFuel
  | outOfRange
  | registrationFailure (k : Nat)
deriving DecidableEq

/-- What a registration pass reads and writes: the visitation vector, the log
of the calls of `addToSystemForOneJoint` (by joint index, in call order) and
the log of the calls of `Joint::addToSystem` (by joint index, in call order). -/
structure PassState where
  hasProcessed : List Bool
  walkerCalls : List Nat
  addToSystemCalls : List Nat
deriving DecidableEq

/-- A call either returns or raises; the state reached is kept in both cases,
since nothing is undone when an exception unwinds the stack. -/
inductive Outcome where
  | returned (s : PassState)
  | threw (f : Fault) (s : PassState)
deriving DecidableEq

/-- The state an outcome carries. -/
def Outcome.state : Outcome → PassState
  | .returned s => s
  | .threw _ s => s

/-- Sequencing of statements: an exception skips what follows. -/
def Outcome.andThen (o : Outcome) (k : PassState → Outcome) : Outcome :=
  match o with
  | .returned s => k s
  | .threw f s => .threw f s

/-- The multibody system seen from the pass: given the registration calls
already made and the joint being registered, whether `addToSystem` succeeds. -/
abbrev Engine := List Nat → Nat → Bool

/-- The engine that accepts every registration. -/
def acceptAll : Engine := fun _ _ => true

/-! ## The code -/

/-- Line 116: `get(jointIndex).addToSystem(system)`. The call is logged, then
it returns or raises as the engine decides. -/
def addToSystem (engine : Engine) (jointIndex : Nat) (s : PassState) : Outcome :=
  let s1 := { s with addToSystemCalls := s.addToSystemCalls ++ [jointIndex] }
  if engine s.addToSystemCalls jointIndex then .returned s1
  else .threw (.registrationFailure jointIndex) s1

/-- Lines 99-117: `JointSet::addToSystemForOneJoint`. The first argument bounds
the number of nested frames. -/
def addToSystemForOneJoint (engine : Engine) (joints : List Joint) (bodyMap : BodyMap) :
    Nat → Nat → PassState → Outcome
  | 0, _, s => .threw .outOfFuel s
  | fuel + 1, jointIndex, s =>
    let s0 := { s with walkerCalls := s.walkerCalls ++ [jointIndex] }
    match s0.hasProcessed[jointIndex]? with
    | none => .threw .outOfRange s0
    | some true => .returned s0
    | some false =>
      let s1 := { s0 with hasProcessed := s0.hasProcessed.set jointIndex true }
      match joints[jointIndex]? with
      | none => .threw .outOfRange s1
      | some joint =>
        let afterParent : Outcome :=
          match bodyMap.find joint.parentBody with
          | none => .returned s1
          | some parentIndex =>
            match s1.hasProcessed[parentIndex]? with
            | none => .threw .outOfRange s1
            | some true => .returned s1
            | some false =>
              addToSystemForOneJoint engine joints bodyMap fuel parentIndex s1
        afterParent.andThen (addToSystem engine jointIndex)

/-- Lines 87-91: the loop `bodyMap[&get(i).updBody()] = i`, started at index
`i` over the joints from `i` on. -/
def buildBodyMapFrom : Nat → List Joint → BodyMap → BodyMap
  | _, [], m => m
  | i, joint :: rest, m => buildBodyMapFrom (i + 1) rest (m.assign joint.body i)

/-- Lines 86-91: the body-to-joint map of a joint set. -/
def buildBodyMap (joints : List Joint) : BodyMap :=
  buildBodyMapFrom 0 joints BodyMap.empty

/-- Line 85: `vector<bool> hasProcessed(getSize(), false)`, with empty logs. -/
def initialState (joints : List Joint) : PassState :=
  { hasProcessed := List.replicate joints.length false
    walkerCalls := []
    addToSystemCalls := [] }

/-- Line 94: one iteration of the driver loop, unless an exception is pending.
The debug print of line 93 changes nothing of the state. -/
def driverStep (engine : Engine) (joints : List Joint) (bodyMap : BodyMap) (fuel : Nat)
    (o : Outcome) (i : Nat) : Outcome :=
  o.andThen (addToSystemForOneJoint engine joints bodyMap fuel i)

/-- Lines 85-96 cut after the iterations `i = 0, ..., k - 1` of the driver loop. -/
def driverUpTo (engine : Engine) (joints : List Joint) (fuel : Nat) (k : Nat) : Outcome :=
  (List.range k).foldl (driverStep engine joints (buildBodyMap joints) fuel)
    (.returned (initialState joints))

/-- Lines 83-97: `JointSet::invokeAddToSystem`, every call of the walker being
allowed `fuel` nested frames. -/
def invokeAddToSystemFuel (engine : Engine) (joints : List Joint) (fuel : Nat) : Outcome :=
  driverUpTo engine joints fuel joints.length

/-- Lines 83-97: `JointSet::invokeAddToSystem`. One frame per joint and one
more is always enough. -/
def invokeAddToSystem (engine : Engine) (joints : List Joint) : Outcome :=
  invokeAddToSystemFuel engine joints (joints.length + 1)

/-! ## Vocabulary of the statements -/

/-- The joint index the map gives for the parent body of joint `i`. -/
def parentIndex (joints : List Joint) (bodyMap : BodyMap) (i : Nat) : Option Nat :=
  match joints[i]? with
  | none => none
  | some joint => bodyMap.find joint.parentBody

/-- The map gives joint `b` for the parent body of joint `a`. -/
def ParentStep (joints : List Joint) (bodyMap : BodyMap) (a b : Nat) : Prop :=
  parentIndex joints bodyMap a = some b

/-- Every entry of the map is an index of the joint set. -/
def ValidMap (joints : List Joint) (bodyMap : BodyMap) : Prop :=
  ∀ b p, bodyMap.find b = some p → p < joints.length

/-- The chain of unvisited ancestors above joint `i`: `i` itself, then the
joint the map gives for its parent body, and so on, each joint being marked as
it is passed; the chain ends at the first joint whose parent body has no entry
or whose entry is already marked. -/
def ascent (joints : List Joint) (bodyMap : BodyMap) : Nat → Nat → List Bool → List Nat
  | 0, _, _ => []
  | fuel + 1, i, hp =>
    i :: (match parentIndex joints bodyMap i with
      | none => []
      | some p =>
        if (hp.set i true)[p]? = some false then
          ascent joints bodyMap fuel p (hp.set i true)
        else [])

/-- The visitation vector with every joint of a list marked. -/
def markAll (hp : List Bool) (l : List Nat) : List Bool :=
  l.foldl (fun h j => h.set j true) hp

/-- What holds of the state between two iterations of the driver loop, `k`
iterations having been made and no registration having failed: a joint is
marked exactly when it has been registered, no joint has been registered
twice, the walker has been called on the joints registered and on no other,
and the joints below `k` are registered. -/
structure PassInv (joints : List Joint) (k : Nat) (s : PassState) : Prop where
  length_eq : s.hasProcessed.length = joints.length
  marked_iff : ∀ j, s.hasProcessed[j]? = some true ↔ j ∈ s.addToSystemCalls
  nodup : s.addToSystemCalls.Nodup
  called_iff : ∀ j, j ∈ s.walkerCalls ↔ j ∈ s.addToSystemCalls
  upTo : ∀ j, j < k → j ∈ s.addToSystemCalls

/-- No two joints of the set have the same child body. -/
def UniqueChildBodies (joints : List Joint) : Prop :=
  (joints.map (fun j => j.body)).Nodup

/-- Joint `P` is the parent of joint `J`: the parent body of `J` is the child
body of `P`, both being joints of the set. -/
def ParentJoint (joints : List Joint) (J P : Nat) : Prop :=
  match joints[J]?, joints[P]? with
  | some a, some b => a.parentBody = b.body
  | _, _ => False

instance (joints : List Joint) (J P : Nat) : Decidable (ParentJoint joints J P) := by
  unfold ParentJoint
  split <;> infer_instance

/-- The parent-body references of the set form no cycle. -/
def Acyclic (joints : List Joint) : Prop :=
  ∀ j, ¬ Relation.TransGen (ParentJoint joints) j j

/-- A log, read from its latest entry backwards, in which every joint comes
after the joint given as its parent. -/
def ParentFirst (par : Nat → Option Nat) : List Nat → Prop
  | [] => True
  | x :: older => (∀ p, par x = some p → p ∈ older) ∧ ParentFirst par older

/-- The fault of an outcome, if it is one. -/
def Outcome.fault? : Outcome → Option Fault
  | .returned _ => none
  | .threw f _ => some f

/-- The state at the entry of the walker, the call being logged. -/
def enter (jointIndex : Nat) (s : PassState) : PassState :=
  { s with walkerCalls := s.walkerCalls ++ [jointIndex] }

/-- The state once the walker has marked its joint (line 103). -/
def mark (jointIndex : Nat) (s : PassState) : PassState :=
  { enter jointIndex s with hasProcessed := s.hasProcessed.set jointIndex true }

/-- The visitation vector is closed under the parent relation of the map:
the joint the map gives for the parent body of a marked joint is marked. -/
def ParentClosed (joints : List Joint) (bodyMap : BodyMap) (hp : List Bool) : Prop :=
  ∀ j p, hp[j]? = some true → parentIndex joints bodyMap j = some p → hp[p]? = some true

/-- The postcondition of the walker: called on joint `i` (no registration
failing) it returns, and joint `i` and every joint reached from `i` by following
the parent-body chain through the map are marked. -/
def MarksAncestors (joints : List Joint) (bodyMap : BodyMap) (fuel i : Nat)
    (s : PassState) : Prop :=
  ∃ s1, addToSystemForOneJoint acceptAll joints bodyMap fuel i s = .returned s1 ∧
    ∀ j, Relation.ReflTransGen (ParentStep joints bodyMap) i j →
      s1.hasProcessed[j]? = some true

/-- The engine accepts the registration calls of a log, one after the other. -/
def Accepted (engine : Engine) (l : List Nat) : Prop :=
  ∀ p1 y p2, l = p1 ++ y :: p2 → engine p1 y = true

/-- Joint `x` lies on a cycle of the parent relation of the map. -/
def OnCycle (joints : List Joint) (bodyMap : BodyMap) (x : Nat) : Prop :=
  Relation.TransGen (ParentStep joints bodyMap) x x

/-- Joint `x` is the first-encountered member of its cycle: it lies on a
cycle, the walker has been called on it, and on none of the joints of the cycle
(the joints reached from `x` along the parent relation) before it. -/
def FirstEncountered (joints : List Joint) (bodyMap : BodyMap) (walkerCalls : List Nat)
    (x : Nat) : Prop :=
  OnCycle joints bodyMap x ∧ x ∈ walkerCalls ∧
    ∀ y, Relation.ReflTransGen (ParentStep joints bodyMap) x y →
      walkerCalls.indexOf x ≤ walkerCalls.indexOf y

/-- Joint `x` is registered before the joint the map gives for its parent
body. -/
def RegisteredBeforeParent (joints : List Joint) (bodyMap : BodyMap) (calls : List Nat)
    (x : Nat) : Prop :=
  ∃ p, parentIndex joints bodyMap x = some p ∧ x ∈ calls ∧ p ∈ calls ∧
    calls.indexOf x < calls.indexOf p

/-- Registration of the joints of a list, one after the other, until
one raises. -/
def registerAll (engine : Engine) : List Nat → PassState → Outcome
  | [], s => .returned s
  | k :: rest, s => (addToSystem engine k s).andThen (registerAll engine rest)

end JointSet

namespace JointSet

/-! ## Lists of booleans -/

theorem count_false_pos {hp : List Bool} {i : Nat} (h : hp[i]? = some false) :
    0 < hp.count false := by
  rw [List.count_pos_iff]
  exact List.getElem?_mem h

theorem count_false_set {hp : List Bool} {i : Nat} (h : hp[i]? = some false) :
    (hp.set i true).count false + 1 = hp.count false := by
  induction hp generalizing i with
  | nil => simp at h
  | cons b t ih =>
    cases i with
    | zero =>
      simp at h
      subst h
      simp
    | succ n =>
      simp at h
      have := ih h
      cases b <;> simp [List.count_cons] <;> omega

/-! ## Sequencing -/

theorem andThen_returned (o : Outcome) : o.andThen .returned = o := by
  cases o <;> rfl

theorem andThen_assoc (o : Outcome) (f g : PassState → Outcome) :
    (o.andThen f).andThen g = o.andThen (fun s => (f s).andThen g) := by
  cases o <;> rfl

theorem registerAll_append (engine : Engine) (l1 l2 : List Nat) (s : PassState) :
    registerAll engine (l1 ++ l2) s = (registerAll engine l1 s).andThen (registerAll engine l2) := by
  induction l1 generalizing s with
  | nil => rfl
  | cons k rest ih =>
    simp only [List.cons_append, registerAll, andThen_assoc]
    congr 1
    funext s1
    exact ih s1

theorem registerAll_singleton (engine : Engine) (k : Nat) :
    registerAll engine [k] = addToSystem engine k := by
  funext s
  simp [registerAll, andThen_returned]

/-! ## Reasoning along the walker -/

/-- Induction along the execution of the walker: a property of its calls
holds if it holds on each path through its body, the recursive call being
assumed to satisfy it. -/
theorem walker_induction (engine : Engine) (joints : List Joint) (bodyMap : BodyMap)
    (P : Nat → Nat → PassState → Outcome → Prop)
    (hfuel : ∀ i s, P 0 i s (.threw .outOfFuel s))
    (hrange : ∀ f i s, s.hasProcessed[i]? = none → P (f + 1) i s (.threw .outOfRange (enter i s)))
    (hvisited : ∀ f i s, s.hasProcessed[i]? = some true → P (f + 1) i s (.returned (enter i s)))
    (hnojoint : ∀ f i s, s.hasProcessed[i]? = some false → joints[i]? = none →
      P (f + 1) i s (.threw .outOfRange (mark i s)))
    (hground : ∀ f i s J, s.hasProcessed[i]? = some false → joints[i]? = some J →
      bodyMap.find J.parentBody = none → P (f + 1) i s (addToSystem engine i (mark i s)))
    (hparentRange : ∀ f i s J p, s.hasProcessed[i]? = some false → joints[i]? = some J →
      bodyMap.find J.parentBody = some p → (mark i s).hasProcessed[p]? = none →
      P (f + 1) i s (.threw .outOfRange (mark i s)))
    (hparentVisited : ∀ f i s J p, s.hasProcessed[i]? = some false → joints[i]? = some J →
      bodyMap.find J.parentBody = some p → (mark i s).hasProcessed[p]? = some true →
      P (f + 1) i s (addToSystem engine i (mark i s)))
    (hrec : ∀ f i s J p, s.hasProcessed[i]? = some false → joints[i]? = some J →
      bodyMap.find J.parentBody = some p → (mark i s).hasProcessed[p]? = some false →
      P f p (mark i s) (addToSystemForOneJoint engine joints bodyMap f p (mark i s)) →
      P (f + 1) i s ((addToSystemForOneJoint engine joints bodyMap f p (mark i s)).andThen
        (addToSystem engine i))) :
    ∀ f i s, P f i s (addToSystemForOneJoint engine joints bodyMap f i s) := by
  intro f
  induction f with
  | zero => intro i s; exact hfuel i s
  | succ f ih =>
    intro i s
    cases h1 : s.hasProcessed[i]? with
    | none =>
      have := hrange f i s h1
      simpa [addToSystemForOneJoint, h1, enter] using this
    | some b =>
      cases b with
      | true =>
        have := hvisited f i s h1
        simpa [addToSystemForOneJoint, h1, enter] using this
      | false =>
        cases h2 : joints[i]? with
        | none =>
          have := hnojoint f i s h1 h2
          simpa [addToSystemForOneJoint, h1, h2, enter, mark] using this
        | some J =>
          cases h3 : bodyMap.find J.parentBody with
          | none =>
            have := hground f i s J h1 h2 h3
            simpa [addToSystemForOneJoint, h1, h2, h3, enter, mark, Outcome.andThen] using this
          | some p =>
            cases h4 : (mark i s).hasProcessed[p]? with
            | none =>
              have := hparentRange f i s J p h1 h2 h3 h4
              simp only [mark, enter] at h4
              simpa [addToSystemForOneJoint, h1, h2, h3, h4, enter, mark, Outcome.andThen]
                using this
            | some b =>
              cases b with
              | true =>
                have := hparentVisited f i s J p h1 h2 h3 h4
                simp only [mark, enter] at h4
                simpa [addToSystemForOneJoint, h1, h2, h3, h4, enter, mark, Outcome.andThen]
                  using this
              | false =>
                have := hrec f i s J p h1 h2 h3 h4 (ih p (mark i s))
                simp only [mark, enter] at h4
                simpa [addToSystemForOneJoint, h1, h2, h3, h4, enter, mark, Outcome.andThen]
                  using this

/-! ## The walker as an ascent followed by registrations -/

theorem parentIndex_lt {joints : List Joint} {bodyMap : BodyMap} (hv : ValidMap joints bodyMap)
    {i p : Nat} (h : parentIndex joints bodyMap i = some p) : p < joints.length := by
  unfold parentIndex at h
  split at h
  · simp at h
  · exact hv _ _ h

theorem walker_eq_registerAll (engine : Engine) (joints : List Joint) (bodyMap : BodyMap)
    (hv : ValidMap joints bodyMap) :
    ∀ (fuel i : Nat) (hp : List Bool) (wc rc : List Nat),
      hp.length = joints.length → hp[i]? = some false → hp.count false ≤ fuel →
      addToSystemForOneJoint engine joints bodyMap fuel i ⟨hp, wc, rc⟩ =
        registerAll engine (ascent joints bodyMap fuel i hp).reverse
          ⟨markAll hp (ascent joints bodyMap fuel i hp),
            wc ++ ascent joints bodyMap fuel i hp, rc⟩ := by
  intro fuel
  induction fuel with
  | zero =>
    intro i hp wc rc _ hi hc
    have := count_false_pos hi
    omega
  | succ f ih =>
    intro i hp wc rc hlen hi hc
    have hilt : i < joints.length := by
      rw [← hlen]
      by_contra hcon
      rw [List.getElem?_eq_none (by omega)] at hi
      simp at hi
    obtain ⟨J, hJ⟩ : ∃ J, joints[i]? = some J := ⟨joints[i], List.getElem?_eq_getElem hilt⟩
    have hcnt := count_false_set hi
    simp only [addToSystemForOneJoint, hi, hJ, ascent, parentIndex]
    cases hm : bodyMap.find J.parentBody with
    | none =>
      simp [Outcome.andThen, registerAll_singleton, markAll]
    | some p =>
      have hp_lt : p < (hp.set i true).length := by
        rw [List.length_set, hlen]
        exact hv _ _ hm
      obtain ⟨b, hb⟩ : ∃ b, (hp.set i true)[p]? = some b :=
        ⟨_, List.getElem?_eq_getElem hp_lt⟩
      cases b with
      | true =>
        simp [hb, Outcome.andThen, registerAll_singleton, markAll]
      | false =>
        simp only [hb, if_true]
        rw [ih p (hp.set i true) (wc ++ [i]) rc (by rw [List.length_set, hlen]) hb (by omega)]
        simp [registerAll_append, registerAll_singleton, markAll]

/-! ## What the ascent looks like -/

theorem getElem?_set_true_false {hp : List Bool} {i j : Nat}
    (h : (hp.set i true)[j]? = some false) : j ≠ i ∧ hp[j]? = some false := by
  rw [List.getElem?_set] at h
  by_cases hij : i = j
  · subst hij
    simp only [if_true] at h
    split at h <;> simp at h
  · simp only [hij, if_false] at h
    exact ⟨fun e => hij e.symm, h⟩

theorem getElem?_set_true_true {hp : List Bool} {i j : Nat}
    (h : (hp.set i true)[j]? = some true) : j = i ∨ hp[j]? = some true := by
  rw [List.getElem?_set] at h
  by_cases hij : i = j
  · exact Or.inl hij.symm
  · simp only [hij, if_false] at h
    exact Or.inr h

theorem ascent_spec (joints : List Joint) (bodyMap : BodyMap) (hv : ValidMap joints bodyMap) :
    ∀ (fuel i : Nat) (hp : List Bool),
      hp.length = joints.length → hp[i]? = some false → hp.count false ≤ fuel →
      (∃ t, ascent joints bodyMap fuel i hp = i :: t) ∧
      (∀ j ∈ ascent joints bodyMap fuel i hp, hp[j]? = some false) ∧
      (ascent joints bodyMap fuel i hp).Nodup ∧
      List.Chain' (ParentStep joints bodyMap)
        (ascent joints bodyMap fuel i hp) ∧
      (∀ l, (ascent joints bodyMap fuel i hp).getLast? = some l →
        parentIndex joints bodyMap l = none ∨
        ∃ p, parentIndex joints bodyMap l = some p ∧
          (hp[p]? = some true ∨ p ∈ ascent joints bodyMap fuel i hp)) := by
  intro fuel
  induction fuel with
  | zero =>
    intro i hp _ hi hc
    have := count_false_pos hi
    omega
  | succ f ih =>
    intro i hp hlen hi hc
    have hcnt := count_false_set hi
    -- the chain stops at `i`
    have stop : ∀ (hstop : ∀ p, parentIndex joints bodyMap i = some p →
          (hp.set i true)[p]? = some true),
        ascent joints bodyMap (f + 1) i hp = [i] →
        (∃ t, ascent joints bodyMap (f + 1) i hp = i :: t) ∧
        (∀ j ∈ ascent joints bodyMap (f + 1) i hp, hp[j]? = some false) ∧
        (ascent joints bodyMap (f + 1) i hp).Nodup ∧
        List.Chain' (ParentStep joints bodyMap)
          (ascent joints bodyMap (f + 1) i hp) ∧
        (∀ l, (ascent joints bodyMap (f + 1) i hp).getLast? = some l →
          parentIndex joints bodyMap l = none ∨
          ∃ p, parentIndex joints bodyMap l = some p ∧
            (hp[p]? = some true ∨ p ∈ ascent joints bodyMap (f + 1) i hp)) := by
      intro hstop heq
      rw [heq]
      refine ⟨⟨[], rfl⟩, ?_, by simp, by simp, ?_⟩
      · intro j hj
        simp at hj
        subst hj
        exact hi
      · intro l hl
        simp at hl
        subst hl
        cases hpar : parentIndex joints bodyMap i with
        | none => exact Or.inl rfl
        | some p =>
          refine Or.inr ⟨p, rfl, ?_⟩
          rcases getElem?_set_true_true (hstop p hpar) with h | h
          · exact Or.inr (by simp [h])
          · exact Or.inl h
    cases hpar : parentIndex joints bodyMap i with
    | none =>
      apply stop
      · intro p hp'
        rw [hpar] at hp'
        simp at hp'
      · simp [ascent, hpar]
    | some p =>
      have hp_lt : p < (hp.set i true).length := by
        rw [List.length_set, hlen]
        exact parentIndex_lt hv hpar
      obtain ⟨b, hb⟩ : ∃ b, (hp.set i true)[p]? = some b :=
        ⟨_, List.getElem?_eq_getElem hp_lt⟩
      cases b with
      | true =>
        apply stop
        · intro q hq
          rw [hpar] at hq
          simp at hq
          subst hq
          exact hb
        · simp [ascent, hpar, hb]
      | false =>
        have heq : ascent joints bodyMap (f + 1) i hp =
            i :: ascent joints bodyMap f p (hp.set i true) := by
          simp [ascent, hpar, hb]
        obtain ⟨⟨t, ht⟩, h2, h3, h4, h5⟩ :=
          ih p (hp.set i true) (by rw [List.length_set, hlen]) hb (by omega)
        rw [heq]
        refine ⟨⟨_, rfl⟩, ?_, ?_, ?_, ?_⟩
        · intro j hj
          rcases List.mem_cons.1 hj with h | h
          · subst h
            exact hi
          · exact (getElem?_set_true_false (h2 j h)).2
        · refine List.nodup_cons.2 ⟨?_, h3⟩
          intro hmem
          exact (getElem?_set_true_false (h2 i hmem)).1 rfl
        · rw [ht]
          rw [ht] at h4
          exact List.Chain'.cons hpar h4
        · intro l hl
          rw [ht] at hl
          simp only [List.getLast?_cons_cons] at hl
          rw [← ht] at hl
          rcases h5 l hl with h | ⟨q, hq, h | h⟩
          · exact Or.inl h
          · refine Or.inr ⟨q, hq, ?_⟩
            rcases getElem?_set_true_true h with h | h
            · exact Or.inr (by simp [h])
            · exact Or.inl h
          · exact Or.inr ⟨q, hq, Or.inr (List.mem_cons_of_mem _ h)⟩

/-! ## Marking a list of joints -/

theorem markAll_length (hp : List Bool) (l : List Nat) : (markAll hp l).length = hp.length := by
  induction l generalizing hp with
  | nil => rfl
  | cons a t ih =>
    simp only [markAll, List.foldl_cons] at ih ⊢
    rw [ih, List.length_set]

theorem markAll_getElem?_of_not_mem {hp : List Bool} {l : List Nat} {j : Nat} (h : j ∉ l) :
    (markAll hp l)[j]? = hp[j]? := by
  induction l generalizing hp with
  | nil => rfl
  | cons a t ih =>
    simp only [List.mem_cons, not_or] at h
    simp only [markAll, List.foldl_cons] at ih ⊢
    rw [ih h.2, List.getElem?_set_ne (fun e => h.1 e.symm)]

theorem markAll_getElem?_of_true {hp : List Bool} {l : List Nat} {j : Nat}
    (h : hp[j]? = some true) : (markAll hp l)[j]? = some true := by
  induction l generalizing hp with
  | nil => exact h
  | cons a t ih =>
    simp only [markAll, List.foldl_cons] at ih ⊢
    apply ih
    rw [List.getElem?_set]
    split
    · split
      · rfl
      · rename_i h1 h2
        subst h1
        rw [List.getElem?_eq_none (by omega)] at h
        simp at h
    · exact h

theorem markAll_getElem?_of_mem {hp : List Bool} {l : List Nat} {j : Nat} (h : j ∈ l)
    (hj : j < hp.length) : (markAll hp l)[j]? = some true := by
  induction l generalizing hp with
  | nil => simp at h
  | cons a t ih =>
    simp only [markAll, List.foldl_cons] at ih ⊢
    by_cases hmem : j ∈ t
    · exact ih hmem (by rw [List.length_set]; exact hj)
    · have hja : j = a := by
        rcases List.mem_cons.1 h with h | h
        · exact h
        · exact absurd h hmem
      subst hja
      have := @markAll_getElem?_of_not_mem (hp.set j true) t j hmem
      simp only [markAll] at this
      rw [this, List.getElem?_set_self hj]

theorem markAll_true_iff {hp : List Bool} {l : List Nat} (hl : ∀ j ∈ l, j < hp.length) (j : Nat) :
    (markAll hp l)[j]? = some true ↔ hp[j]? = some true ∨ j ∈ l := by
  constructor
  · intro h
    by_cases hmem : j ∈ l
    · exact Or.inr hmem
    · rw [markAll_getElem?_of_not_mem hmem] at h
      exact Or.inl h
  · rintro (h | h)
    · exact markAll_getElem?_of_true h
    · exact markAll_getElem?_of_mem h (hl j h)

/-! ## The body-to-joint map -/

theorem buildBodyMapFrom_append (i : Nat) (js : List Joint) (J : Joint) (m : BodyMap) :
    buildBodyMapFrom i (js ++ [J]) m =
      (buildBodyMapFrom i js m).assign J.body (i + js.length) := by
  induction js generalizing i m with
  | nil => rfl
  | cons J0 rest ih =>
    show buildBodyMapFrom (i + 1) (rest ++ [J]) (m.assign J0.body i) = _
    rw [ih, show i + 1 + rest.length = i + (rest.length + 1) by omega]
    simp only [buildBodyMapFrom, List.length_cons]

theorem buildBodyMap_append (js : List Joint) (J : Joint) :
    buildBodyMap (js ++ [J]) = (buildBodyMap js).assign J.body js.length := by
  unfold buildBodyMap
  rw [buildBodyMapFrom_append, Nat.zero_add]

theorem buildBodyMap_eq_some_iff (js : List Joint) (b : Body) (p : Nat) :
    (buildBodyMap js).find b = some p ↔
      (∃ J, js[p]? = some J ∧ J.body = b) ∧
        ∀ j J, p < j → js[j]? = some J → J.body ≠ b := by
  induction js using List.reverseRecOn generalizing p with
  | nil => simp [buildBodyMap, buildBodyMapFrom, BodyMap.find, BodyMap.empty]
  | append_singleton js J ih =>
    rw [buildBodyMap_append]
    simp only [BodyMap.find, BodyMap.assign] at ih ⊢
    by_cases hb : b = J.body
    · simp only [hb, if_true, Option.some.injEq]
      constructor
      · intro h
        subst h
        refine ⟨⟨J, by simp, rfl⟩, ?_⟩
        intro j J1 hj hJ1
        rw [List.getElem?_eq_none (by simp; omega)] at hJ1
        simp at hJ1
      · rintro ⟨⟨J1, hJ1, _⟩, hlast⟩
        have hlt : p < (js ++ [J]).length := by
          by_contra hcon
          rw [List.getElem?_eq_none (by omega)] at hJ1
          simp at hJ1
        simp only [List.length_append, List.length_singleton] at hlt
        by_contra hne
        exact hlast js.length J (by omega) (by simp) rfl
    · simp only [hb, if_false]
      rw [ih]
      constructor
      · rintro ⟨⟨J1, hJ1, hJ1b⟩, hlast⟩
        have hlt : p < js.length := by
          by_contra hcon
          rw [List.getElem?_eq_none (by omega)] at hJ1
          simp at hJ1
        refine ⟨⟨J1, by rw [List.getElem?_append_left hlt]; exact hJ1, hJ1b⟩, ?_⟩
        intro j J2 hj hJ2
        by_cases hjl : j < js.length
        · rw [List.getElem?_append_left hjl] at hJ2
          exact hlast j J2 hj hJ2
        · by_cases hje : j = js.length
          · subst hje
            simp at hJ2
            subst hJ2
            exact fun e => hb e.symm
          · rw [List.getElem?_eq_none (by simp; omega)] at hJ2
            simp at hJ2
      · rintro ⟨⟨J1, hJ1, hJ1b⟩, hlast⟩
        have hlt : p < js.length := by
          by_contra hcon
          by_cases hpe : p = js.length
          · subst hpe
            simp at hJ1
            subst hJ1
            exact hb hJ1b.symm
          · rw [List.getElem?_eq_none (by simp; omega)] at hJ1
            simp at hJ1
        rw [List.getElem?_append_left hlt] at hJ1
        refine ⟨⟨J1, hJ1, hJ1b⟩, ?_⟩
        intro j J2 hj hJ2
        have hjl : j < js.length := by
          by_contra hcon
          rw [List.getElem?_eq_none (by omega)] at hJ2
          simp at hJ2
        exact hlast j J2 hj (by rw [List.getElem?_append_left hjl]; exact hJ2)

theorem buildBodyMap_valid (js : List Joint) : ValidMap js (buildBodyMap js) := by
  intro b p h
  obtain ⟨⟨J, hJ, _⟩, _⟩ := (buildBodyMap_eq_some_iff js b p).1 h
  by_contra hcon
  rw [List.getElem?_eq_none (by omega)] at hJ
  simp at hJ

/-! ## The driver loop when no registration fails -/

theorem registerAll_acceptAll (l : List Nat) (hp : List Bool) (wc rc : List Nat) :
    registerAll acceptAll l ⟨hp, wc, rc⟩ = .returned ⟨hp, wc, rc ++ l⟩ := by
  induction l generalizing rc with
  | nil => simp [registerAll]
  | cons a t ih =>
    simp [registerAll, addToSystem, acceptAll, Outcome.andThen, ih]

theorem walker_visited (engine : Engine) (joints : List Joint) (bodyMap : BodyMap)
    (fuel i : Nat) (hp : List Bool) (wc rc : List Nat) (hi : hp[i]? = some true) :
    addToSystemForOneJoint engine joints bodyMap (fuel + 1) i ⟨hp, wc, rc⟩ =
      .returned ⟨hp, wc ++ [i], rc⟩ := by
  simp [addToSystemForOneJoint, hi]

theorem walker_acceptAll_unvisited (joints : List Joint) (bodyMap : BodyMap)
    (hv : ValidMap joints bodyMap) (fuel i : Nat) (hp : List Bool) (wc rc : List Nat)
    (hlen : hp.length = joints.length) (hi : hp[i]? = some false)
    (hc : hp.count false ≤ fuel) :
    addToSystemForOneJoint acceptAll joints bodyMap fuel i ⟨hp, wc, rc⟩ =
      .returned ⟨markAll hp (ascent joints bodyMap fuel i hp),
        wc ++ ascent joints bodyMap fuel i hp,
        rc ++ (ascent joints bodyMap fuel i hp).reverse⟩ := by
  rw [walker_eq_registerAll acceptAll joints bodyMap hv fuel i hp wc rc hlen hi hc,
    registerAll_acceptAll]

theorem driverUpTo_zero (engine : Engine) (joints : List Joint) (fuel : Nat) :
    driverUpTo engine joints fuel 0 = .returned (initialState joints) := rfl

theorem driverUpTo_succ (engine : Engine) (joints : List Joint) (fuel k : Nat) :
    driverUpTo engine joints fuel (k + 1) =
      (driverUpTo engine joints fuel k).andThen
        (addToSystemForOneJoint engine joints (buildBodyMap joints) fuel k) := by
  simp [driverUpTo, List.range_succ, List.foldl_append, driverStep]

theorem count_false_le_of_length {hp : List Bool} {n fuel : Nat} (hlen : hp.length = n)
    (hf : n ≤ fuel) : hp.count false ≤ fuel :=
  le_trans (List.count_le_length _ _) (hlen ▸ hf)

/-- One iteration of the driver loop, no registration failing: the call on a
marked joint changes nothing but the log of walker calls; the call on an
unmarked joint marks the ascent, and registers it from its top downwards. -/
theorem driver_step (joints : List Joint) (fuel k : Nat) (hf : joints.length ≤ fuel)
    (hk : k < joints.length) {s : PassState}
    (hs : driverUpTo acceptAll joints fuel k = .returned s)
    (hlen : s.hasProcessed.length = joints.length) :
    (s.hasProcessed[k]? = some true ∧
      driverUpTo acceptAll joints fuel (k + 1) =
        .returned ⟨s.hasProcessed, s.walkerCalls ++ [k], s.addToSystemCalls⟩) ∨
    (s.hasProcessed[k]? = some false ∧
      driverUpTo acceptAll joints fuel (k + 1) =
        .returned ⟨markAll s.hasProcessed
            (ascent joints (buildBodyMap joints) fuel k s.hasProcessed),
          s.walkerCalls ++ ascent joints (buildBodyMap joints) fuel k s.hasProcessed,
          s.addToSystemCalls ++
            (ascent joints (buildBodyMap joints) fuel k s.hasProcessed).reverse⟩) := by
  obtain ⟨hp, wc, rc⟩ := s
  simp only at hlen ⊢
  rw [driverUpTo_succ, hs]
  simp only [Outcome.andThen]
  obtain ⟨b, hb⟩ : ∃ b, hp[k]? = some b :=
    ⟨_, List.getElem?_eq_getElem (by rw [hlen]; exact hk)⟩
  cases b with
  | true =>
    left
    obtain ⟨f, rfl⟩ : ∃ f, fuel = f + 1 := ⟨fuel - 1, by omega⟩
    exact ⟨hb, walker_visited _ _ _ _ _ _ _ _ hb⟩
  | false =>
    right
    exact ⟨hb, walker_acceptAll_unvisited joints _ (buildBodyMap_valid joints) fuel k hp wc rc
      hlen hb (count_false_le_of_length hlen hf)⟩

theorem ascent_lt (joints : List Joint) (bodyMap : BodyMap) (hv : ValidMap joints bodyMap)
    (fuel i : Nat) (hp : List Bool) (hlen : hp.length = joints.length)
    (hi : hp[i]? = some false) (hc : hp.count false ≤ fuel) :
    ∀ j ∈ ascent joints bodyMap fuel i hp, j < hp.length := by
  intro j hj
  have := (ascent_spec joints bodyMap hv fuel i hp hlen hi hc).2.1 j hj
  by_contra hcon
  rw [List.getElem?_eq_none (by omega)] at this
  simp at this

theorem driver_inv (joints : List Joint) (fuel : Nat) (hf : joints.length ≤ fuel) :
    ∀ k, k ≤ joints.length →
      ∃ s, driverUpTo acceptAll joints fuel k = .returned s ∧ PassInv joints k s := by
  intro k
  induction k with
  | zero =>
    intro _
    refine ⟨_, driverUpTo_zero _ _ _, ?_⟩
    constructor <;> simp [initialState]
    intro j h
    rw [List.getElem?_replicate] at h
    split at h <;> simp at h
  | succ k ih =>
    intro hk
    obtain ⟨s, hs, inv⟩ := ih (by omega)
    have hv := buildBodyMap_valid joints
    rcases driver_step joints fuel k hf (by omega) hs inv.length_eq with ⟨hb, h⟩ | ⟨hb, h⟩
    · refine ⟨_, h, ?_⟩
      constructor
      · exact inv.length_eq
      · exact inv.marked_iff
      · exact inv.nodup
      · intro j
        simp only [List.mem_append, List.mem_singleton]
        rw [inv.called_iff]
        constructor
        · rintro (h | h)
          · exact h
          · subst h
            exact (inv.marked_iff _).1 hb
        · exact Or.inl
      · intro j hj
        by_cases hjk : j = k
        · subst hjk
          exact (inv.marked_iff _).1 hb
        · exact inv.upTo j (by omega)
    · have hc := count_false_le_of_length inv.length_eq hf
      obtain ⟨⟨t, ht⟩, h2, h3, _, _⟩ :=
        ascent_spec joints _ hv fuel k s.hasProcessed inv.length_eq hb hc
      have hlt := ascent_lt joints _ hv fuel k s.hasProcessed inv.length_eq hb hc
      refine ⟨_, h, ?_⟩
      constructor
      · simp only [markAll_length]
        exact inv.length_eq
      · intro j
        simp only [markAll_true_iff hlt, List.mem_append, List.mem_reverse]
        rw [inv.marked_iff]
      · simp only
        rw [List.nodup_append]
        refine ⟨inv.nodup, List.nodup_reverse.2 h3, ?_⟩
        intro j hj1 hj2
        rw [List.mem_reverse] at hj2
        have h1 := (inv.marked_iff j).2 hj1
        rw [h2 j hj2] at h1
        simp at h1
      · intro j
        simp only [List.mem_append, List.mem_reverse]
        rw [inv.called_iff]
      · intro j hj
        simp only [List.mem_append, List.mem_reverse]
        by_cases hjk : j = k
        · subst hjk
          right
          rw [ht]
          exact List.mem_cons_self _ _
        · exact Or.inl (inv.upTo j (by omega))

theorem driver_inv_of_eq (joints : List Joint) (fuel : Nat) (hf : joints.length ≤ fuel)
    (k : Nat) (hk : k ≤ joints.length) {s : PassState}
    (hs : driverUpTo acceptAll joints fuel k = .returned s) : PassInv joints k s := by
  obtain ⟨s1, h1, inv⟩ := driver_inv joints fuel hf k hk
  rw [hs] at h1
  cases h1
  exact inv

/-! ## Parents before children -/

theorem chain_reach_last {R : Nat → Nat → Prop} :
    ∀ (ch : List Nat) (p l : Nat), List.Chain' R ch → p ∈ ch → ch.getLast? = some l →
      Relation.ReflTransGen R p l := by
  intro ch
  induction ch with
  | nil => intro p l _ hp; simp at hp
  | cons a t ih =>
    intro p l hch hp hl
    cases t with
    | nil =>
      simp at hp hl
      subst hp hl
      exact Relation.ReflTransGen.refl
    | cons b t1 =>
      rw [List.chain'_cons] at hch
      rw [List.getLast?_cons_cons] at hl
      rcases List.mem_cons.1 hp with h | h
      · subst h
        exact Relation.ReflTransGen.head hch.1 (ih b l hch.2 (List.mem_cons_self _ _) hl)
      · exact ih p l hch.2 h hl

theorem parentFirst_append (joints : List Joint) (bodyMap : BodyMap) :
    ∀ (ch older : List Nat), List.Chain' (ParentStep joints bodyMap) ch →
      (∀ l, ch.getLast? = some l → ∀ p, parentIndex joints bodyMap l = some p → p ∈ older) →
      ParentFirst (parentIndex joints bodyMap) older →
      ParentFirst (parentIndex joints bodyMap) (ch ++ older) := by
  intro ch
  induction ch with
  | nil => intro older _ _ h; exact h
  | cons a t ih =>
    intro older hch hlast hold
    cases t with
    | nil =>
      refine ⟨?_, hold⟩
      intro p hp
      exact hlast a (by simp) p hp
    | cons b t1 =>
      rw [List.chain'_cons] at hch
      refine ⟨?_, ih older hch.2 ?_ hold⟩
      · intro p hp
        have h1 : parentIndex joints bodyMap a = some b := hch.1
        rw [h1] at hp
        cases hp
        simp
      · intro l hl
        exact hlast l (by rw [List.getLast?_cons_cons]; exact hl)

theorem indexOf_lt_of_parentFirst {par : Nat → Option Nat} :
    ∀ (l : List Nat), ParentFirst par l.reverse → l.Nodup →
      ∀ j p, j ∈ l → par j = some p → p ∈ l ∧ l.indexOf p < l.indexOf j := by
  intro l
  induction l using List.reverseRecOn with
  | nil => intro _ _ j p hj; simp at hj
  | append_singleton l x ih =>
    intro hpf hnd j p hj hp
    rw [List.reverse_append, List.reverse_singleton, List.singleton_append] at hpf
    have hnd1 : l.Nodup := (List.nodup_append.1 hnd).1
    have hx : x ∉ l := by
      intro hx
      exact (List.nodup_append.1 hnd).2.2 hx (by simp)
    by_cases hjl : j ∈ l
    · obtain ⟨h1, h2⟩ := ih hpf.2 hnd1 j p hjl hp
      refine ⟨List.mem_append_left _ h1, ?_⟩
      rw [List.indexOf_append_of_mem h1, List.indexOf_append_of_mem hjl]
      exact h2
    · have hjx : j = x := by
        rcases List.mem_append.1 hj with h | h
        · exact absurd h hjl
        · simpa using h
      subst hjx
      have hpl : p ∈ l := List.mem_reverse.1 (hpf.1 p hp)
      refine ⟨List.mem_append_left _ hpl, ?_⟩
      rw [List.indexOf_append_of_mem hpl, List.indexOf_append_of_not_mem hx]
      have := List.indexOf_lt_length.2 hpl
      omega

theorem parentJoint_of_parentIndex (joints : List Joint) {a b : Nat}
    (h : parentIndex joints (buildBodyMap joints) a = some b) : ParentJoint joints a b := by
  unfold parentIndex at h
  unfold ParentJoint
  cases ha : joints[a]? with
  | none => simp [ha] at h
  | some J =>
    simp only [ha] at h
    obtain ⟨⟨Jb, hJb, hbody⟩, _⟩ := (buildBodyMap_eq_some_iff joints _ _).1 h
    simp only [hJb]
    exact hbody.symm

theorem parentIndex_of_parentJoint (joints : List Joint) (hu : UniqueChildBodies joints)
    {a b : Nat} (h : ParentJoint joints a b) :
    parentIndex joints (buildBodyMap joints) a = some b := by
  unfold ParentJoint at h
  unfold parentIndex
  cases ha : joints[a]? with
  | none => simp [ha] at h
  | some Ja =>
    cases hb : joints[b]? with
    | none => simp [ha, hb] at h
    | some Jb =>
      simp only [ha, hb] at h ⊢
      rw [buildBodyMap_eq_some_iff]
      refine ⟨⟨Jb, hb, h.symm⟩, ?_⟩
      intro j J hj hJ hbody
      have hblt : b < (joints.map (fun j => j.body)).length := by
        rw [List.length_map]
        by_contra hcon
        rw [List.getElem?_eq_none (by omega)] at hb
        simp at hb
      have : b = j := by
        apply List.getElem?_inj hblt hu
        rw [List.getElem?_map, List.getElem?_map, hb, hJ]
        simp [hbody, h]
      omega

theorem no_cycle_of_acyclic (joints : List Joint) (ha : Acyclic joints) (j : Nat) :
    ¬ Relation.TransGen (ParentStep joints (buildBodyMap joints)) j j := by
  intro h
  exact ha j (Relation.TransGen.mono (fun a b hab => parentJoint_of_parentIndex joints hab) h)

theorem parentJoint_lt (joints : List Joint) {J P : Nat} (h : ParentJoint joints J P) :
    J < joints.length ∧ P < joints.length := by
  unfold ParentJoint at h
  constructor
  · by_contra hcon
    rw [List.getElem?_eq_none (by omega)] at h
    simp at h
  · by_contra hcon
    rw [List.getElem?_eq_none (n := P) (by omega)] at h
    split at h <;> simp_all

theorem acyclic_of_rank (joints : List Joint) (r : Nat → Nat)
    (h : ∀ J, J < joints.length → ∀ P, P < joints.length → ParentJoint joints J P → r P < r J) :
    Acyclic joints := by
  have key : ∀ a b, Relation.TransGen (ParentJoint joints) a b → r b < r a := by
    intro a b hab
    induction hab with
    | single h1 => exact h _ (parentJoint_lt joints h1).1 _ (parentJoint_lt joints h1).2 h1
    | tail _ h2 ih =>
      exact lt_trans (h _ (parentJoint_lt joints h2).1 _ (parentJoint_lt joints h2).2 h2) ih
  intro j hj
  exact lt_irrefl _ (key j j hj)

theorem driver_parentFirst (joints : List Joint) (fuel : Nat) (hf : joints.length ≤ fuel)
    (hnc : ∀ j, ¬ Relation.TransGen (ParentStep joints (buildBodyMap joints)) j j) :
    ∀ k, k ≤ joints.length → ∀ s, driverUpTo acceptAll joints fuel k = .returned s →
      ParentFirst (parentIndex joints (buildBodyMap joints)) s.addToSystemCalls.reverse := by
  intro k
  induction k with
  | zero =>
    intro _ s hs
    rw [driverUpTo_zero] at hs
    cases hs
    simp [initialState, ParentFirst]
  | succ k ih =>
    intro hk s1 hs1
    obtain ⟨s, hs, inv⟩ := driver_inv joints fuel hf k (by omega)
    have hpf := ih (by omega) s hs
    have hv := buildBodyMap_valid joints
    rcases driver_step joints fuel k hf (by omega) hs inv.length_eq with ⟨_, h⟩ | ⟨hb, h⟩
    · rw [hs1] at h
      cases h
      exact hpf
    · rw [hs1] at h
      cases h
      have hc := count_false_le_of_length inv.length_eq hf
      obtain ⟨_, _, _, h4, h5⟩ :=
        ascent_spec joints _ hv fuel k s.hasProcessed inv.length_eq hb hc
      simp only [List.reverse_append, List.reverse_reverse]
      apply parentFirst_append _ _ _ _ h4 _ hpf
      intro l hl p hp
      rcases h5 l hl with h | ⟨q, hq, h | h⟩
      · rw [h] at hp
        cases hp
      · rw [hq] at hp
        cases hp
        exact List.mem_reverse.2 ((inv.marked_iff _).1 h)
      · rw [hq] at hp
        cases hp
        have hstep : ParentStep joints (buildBodyMap joints) l p := hq
        exact absurd (Relation.TransGen.head' hstep (chain_reach_last _ _ _ h4 h hl)) (hnc l)

/-- When no registration fails, the pass returns, its registration calls are
the joints of the set, each once, and every joint is marked. -/
theorem pass_complete (joints : List Joint) :
    ∃ s, invokeAddToSystem acceptAll joints = .returned s ∧
      PassInv joints joints.length s ∧
      s.addToSystemCalls.Perm (List.range joints.length) ∧
      s.hasProcessed = List.replicate joints.length true := by
  obtain ⟨s, hs, inv⟩ := driver_inv joints (joints.length + 1) (by omega) joints.length le_rfl
  have hmem : ∀ j, j ∈ s.addToSystemCalls ↔ j < joints.length := by
    intro j
    constructor
    · intro h
      have := (inv.marked_iff j).2 h
      by_contra hcon
      rw [List.getElem?_eq_none (by rw [inv.length_eq]; omega)] at this
      simp at this
    · exact inv.upTo j
  refine ⟨s, hs, inv, ?_, ?_⟩
  · rw [List.perm_ext_iff_of_nodup inv.nodup (List.nodup_range _)]
    intro j
    rw [hmem, List.mem_range]
  · rw [List.eq_replicate_iff]
    refine ⟨inv.length_eq, ?_⟩
    intro b hb
    obtain ⟨n, hn⟩ := List.mem_iff_getElem?.1 hb
    have hlt : n < joints.length := by
      by_contra hcon
      rw [List.getElem?_eq_none (by rw [inv.length_eq]; omega)] at hn
      simp at hn
    have := (inv.marked_iff n).2 ((hmem n).2 hlt)
    rw [this] at hn
    cases hn
    rfl

/-- When the set is well formed, the parent of a joint is registered before it. -/
theorem pass_parent_before (joints : List Joint) (hu : UniqueChildBodies joints)
    (ha : Acyclic joints) (J P : Nat) (h : ParentJoint joints J P) :
    ∃ s, invokeAddToSystem acceptAll joints = .returned s ∧
      P ∈ s.addToSystemCalls ∧ J ∈ s.addToSystemCalls ∧
      s.addToSystemCalls.indexOf P < s.addToSystemCalls.indexOf J := by
  obtain ⟨s, hs, inv, _, _⟩ := pass_complete joints
  have hpf := driver_parentFirst joints (joints.length + 1) (by omega)
    (no_cycle_of_acyclic joints ha) joints.length le_rfl s hs
  have hJ : J ∈ s.addToSystemCalls := inv.upTo J (parentJoint_lt joints h).1
  obtain ⟨h1, h2⟩ := indexOf_lt_of_parentFirst _ hpf inv.nodup J P hJ
    (parentIndex_of_parentJoint joints hu h)
  exact ⟨s, hs, h1, hJ, h2⟩

/-! ## A single chain -/

theorem getElem?_lt_length {α : Type} {l : List α} {k : Nat} {a : α} (h : l[k]? = some a) :
    k < l.length := by
  by_contra hcon
  rw [List.getElem?_eq_none (by omega)] at h
  simp at h

theorem indexOf_of_getElem? {l : List Nat} (hnd : l.Nodup) {k a : Nat} (h : l[k]? = some a) :
    l.indexOf a = k := by
  have hk := getElem?_lt_length h
  rw [List.getElem?_eq_getElem hk] at h
  cases h
  exact List.indexOf_getElem hnd k hk

/-- A log that lists the joints of `order`, each once, and in which every
joint of `order` comes before the next one, is `order`. -/
theorem eq_of_perm_of_consecutive (order rc : List Nat) (hperm : rc.Perm order)
    (hcons : ∀ k a b, order[k]? = some a → order[k + 1]? = some b →
      rc.indexOf a < rc.indexOf b) : rc = order := by
  have hlen : rc.length = order.length := hperm.length_eq
  have hmem : ∀ {k a}, order[k]? = some a → a ∈ rc := fun h =>
    hperm.mem_iff.2 (List.getElem?_mem h)
  have lower : ∀ k a, order[k]? = some a → k ≤ rc.indexOf a := by
    intro k
    induction k with
    | zero => intro a _; omega
    | succ k ih =>
      intro a ha
      have hk := getElem?_lt_length ha
      have hprev : order[k]? = some order[k] := List.getElem?_eq_getElem (by omega)
      have := ih _ hprev
      have := hcons k _ a hprev ha
      omega
  have upper : ∀ d k a, order[k]? = some a → k + d + 1 = order.length →
      rc.indexOf a + d < order.length := by
    intro d
    induction d with
    | zero =>
      intro k a ha _
      have := List.indexOf_lt_length.2 (hmem ha)
      omega
    | succ d ih =>
      intro k a ha hk
      have hnext : order[k + 1]? = some order[k + 1] := List.getElem?_eq_getElem (by omega)
      have := ih (k + 1) _ hnext (by omega)
      have := hcons k a _ ha hnext
      omega
  apply List.ext_getElem?
  intro n
  by_cases hn : n < order.length
  · have ha : order[n]? = some order[n] := List.getElem?_eq_getElem hn
    have h1 := lower n _ ha
    have h2 := upper (order.length - 1 - n) n _ ha (by omega)
    have hidx : rc.indexOf order[n] = n := by omega
    have hget := List.getElem?_indexOf (hmem ha)
    rw [hidx] at hget
    rw [ha]
    exact hget
  · rw [List.getElem?_eq_none (by omega), List.getElem?_eq_none (by omega)]

theorem parentJoint_unique (joints : List Joint) (hu : UniqueChildBodies joints) {J P Q : Nat}
    (hP : ParentJoint joints J P) (hQ : ParentJoint joints J Q) : P = Q := by
  have h1 := parentIndex_of_parentJoint joints hu hP
  have h2 := parentIndex_of_parentJoint joints hu hQ
  rw [h1] at h2
  cases h2
  rfl

/-- A single chain, in whatever storage order, is registered from ground
outwards: `order` lists the storage indices of the joints along the chain. -/
theorem chain_registered_in_order (joints : List Joint) (order : List Nat)
    (hperm : order.Perm (List.range joints.length)) (hu : UniqueChildBodies joints)
    (hground : ∀ a, order[0]? = some a → ∀ P, ¬ ParentJoint joints a P)
    (hchain : ∀ k a b, order[k]? = some a → order[k + 1]? = some b →
      ParentJoint joints b a) :
    ∃ s, invokeAddToSystem acceptAll joints = .returned s ∧ s.addToSystemCalls = order := by
  have hnd : order.Nodup := hperm.nodup_iff.2 (List.nodup_range _)
  have hacyc : Acyclic joints := by
    apply acyclic_of_rank joints (fun j => order.indexOf j)
    intro J hJ P _ hJP
    have hJmem : J ∈ order := hperm.mem_iff.2 (List.mem_range.2 hJ)
    have hJat : order[order.indexOf J]? = some J := List.getElem?_indexOf hJmem
    cases hidx : order.indexOf J with
    | zero =>
      rw [hidx] at hJat
      exact absurd hJP (hground J hJat P)
    | succ k =>
      rw [hidx] at hJat
      have hk := getElem?_lt_length hJat
      have hprev : order[k]? = some order[k] := List.getElem?_eq_getElem (by omega)
      have hPeq := parentJoint_unique joints hu hJP (hchain k _ J hprev hJat)
      show order.indexOf P < k + 1
      rw [hPeq, indexOf_of_getElem? hnd hprev]
      omega
  obtain ⟨s, hs, inv, hp, _⟩ := pass_complete joints
  refine ⟨s, hs, ?_⟩
  apply eq_of_perm_of_consecutive order _ (hp.trans hperm.symm)
  intro k a b ha hb
  obtain ⟨s1, hs1, _, _, hlt⟩ := pass_parent_before joints hu hacyc b a (hchain k a b ha hb)
  rw [hs] at hs1
  cases hs1
  exact hlt

/-! ## Termination: the fuel needed -/

theorem addToSystem_fault_ne (engine : Engine) (i : Nat) (s : PassState) :
    (addToSystem engine i s).fault? ≠ some .outOfFuel := by
  unfold addToSystem
  split <;> simp [Outcome.fault?]

theorem andThen_fault_ne {o : Outcome} {k : PassState → Outcome}
    (ho : o.fault? ≠ some .outOfFuel) (hk : ∀ s, (k s).fault? ≠ some .outOfFuel) :
    (o.andThen k).fault? ≠ some .outOfFuel := by
  cases o with
  | returned s => exact hk s
  | threw f s => exact ho

theorem fault_ne_of_andThen {o : Outcome} {k : PassState → Outcome}
    (h : (o.andThen k).fault? ≠ some .outOfFuel) : o.fault? ≠ some .outOfFuel := by
  cases o with
  | returned s => simp [Outcome.fault?]
  | threw f s => exact h

/-- A call of the walker never runs out of frames when it is given one frame
per unmarked joint, and at least one. -/
theorem walker_fault_ne (engine : Engine) (joints : List Joint) (bodyMap : BodyMap) :
    ∀ f i s, 1 ≤ f → s.hasProcessed.count false ≤ f →
      (addToSystemForOneJoint engine joints bodyMap f i s).fault? ≠ some .outOfFuel := by
  apply walker_induction engine joints bodyMap
    (fun f _ s o => 1 ≤ f → s.hasProcessed.count false ≤ f → o.fault? ≠ some .outOfFuel)
  · intro i s h; omega
  · intro f i s _ _ _; simp [Outcome.fault?]
  · intro f i s _ _ _; simp [Outcome.fault?]
  · intro f i s _ _ _ _; simp [Outcome.fault?]
  · intro f i s J _ _ _ _ _; exact addToSystem_fault_ne _ _ _
  · intro f i s J p _ _ _ _ _ _; simp [Outcome.fault?]
  · intro f i s J p _ _ _ _ _ _; exact addToSystem_fault_ne _ _ _
  · intro f i s J p h1 _ _ h4 ih _ hc
    have hcnt := count_false_set h1
    have hpos := count_false_pos h4
    simp only [mark, enter] at hpos
    apply andThen_fault_ne _ (addToSystem_fault_ne _ _)
    apply ih
    · omega
    · simp only [mark, enter]
      omega

/-- One more frame changes nothing once the frames were enough. -/
theorem walker_fuel_succ (engine : Engine) (joints : List Joint) (bodyMap : BodyMap) :
    ∀ f i s, (addToSystemForOneJoint engine joints bodyMap f i s).fault? ≠ some .outOfFuel →
      addToSystemForOneJoint engine joints bodyMap (f + 1) i s =
        addToSystemForOneJoint engine joints bodyMap f i s := by
  apply walker_induction engine joints bodyMap
    (fun f i s o => o.fault? ≠ some .outOfFuel →
      addToSystemForOneJoint engine joints bodyMap (f + 1) i s = o)
  · intro i s h; simp [Outcome.fault?] at h
  · intro f i s h1 _; simp [addToSystemForOneJoint, h1, enter]
  · intro f i s h1 _; simp [addToSystemForOneJoint, h1, enter]
  · intro f i s h1 h2 _; simp [addToSystemForOneJoint, h1, h2, enter, mark]
  · intro f i s J h1 h2 h3 _
    simp [addToSystemForOneJoint, h1, h2, h3, enter, mark, Outcome.andThen]
  · intro f i s J p h1 h2 h3 h4 _
    simp only [mark, enter] at h4
    simp [addToSystemForOneJoint, h1, h2, h3, h4, enter, mark, Outcome.andThen]
  · intro f i s J p h1 h2 h3 h4 _
    simp only [mark, enter] at h4
    simp [addToSystemForOneJoint, h1, h2, h3, h4, enter, mark, Outcome.andThen]
  · intro f i s J p h1 h2 h3 h4 ih hne
    have hrec := ih (fault_ne_of_andThen hne)
    rw [← hrec]
    simp only [mark, enter] at h4 ⊢
    conv_lhs => unfold addToSystemForOneJoint
    simp [h1, h2, h3, h4]

theorem walker_fuel_le (engine : Engine) (joints : List Joint) (bodyMap : BodyMap)
    (f i : Nat) (s : PassState)
    (h : (addToSystemForOneJoint engine joints bodyMap f i s).fault? ≠ some .outOfFuel) :
    ∀ f1, f ≤ f1 →
      addToSystemForOneJoint engine joints bodyMap f1 i s =
        addToSystemForOneJoint engine joints bodyMap f i s := by
  intro f1 hle
  induction f1, hle using Nat.le_induction with
  | base => rfl
  | succ n _ ih =>
    rw [← ih]
    apply walker_fuel_succ
    rw [ih]
    exact h

/-! ## The length of the visitation vector -/

theorem addToSystem_hasProcessed (engine : Engine) (i : Nat) (s : PassState) :
    (addToSystem engine i s).state.hasProcessed = s.hasProcessed := by
  unfold addToSystem
  split <;> rfl

theorem walker_length (engine : Engine) (joints : List Joint) (bodyMap : BodyMap) :
    ∀ f i s, (addToSystemForOneJoint engine joints bodyMap f i s).state.hasProcessed.length =
      s.hasProcessed.length := by
  apply walker_induction engine joints bodyMap
    (fun _ _ s o => o.state.hasProcessed.length = s.hasProcessed.length)
  · intro i s; rfl
  · intro f i s _; rfl
  · intro f i s _; rfl
  · intro f i s _ _; simp [Outcome.state, mark, enter]
  · intro f i s J _ _ _; simp [addToSystem_hasProcessed, mark, enter]
  · intro f i s J p _ _ _ _; simp [Outcome.state, mark, enter]
  · intro f i s J p _ _ _ _; simp [addToSystem_hasProcessed, mark, enter]
  · intro f i s J p _ _ _ _ ih
    cases h : addToSystemForOneJoint engine joints bodyMap f p (mark i s) with
    | returned s1 =>
      rw [h] at ih
      simp only [Outcome.andThen, addToSystem_hasProcessed]
      simpa [Outcome.state, mark, enter] using ih
    | threw g s1 =>
      rw [h] at ih
      simpa [Outcome.andThen, Outcome.state, mark, enter] using ih

theorem driver_length (engine : Engine) (joints : List Joint) (fuel : Nat) :
    ∀ k, (driverUpTo engine joints fuel k).state.hasProcessed.length = joints.length := by
  intro k
  induction k with
  | zero => simp [driverUpTo_zero, Outcome.state, initialState]
  | succ k ih =>
    rw [driverUpTo_succ]
    cases h : driverUpTo engine joints fuel k with
    | returned s =>
      rw [h] at ih
      simp only [Outcome.andThen]
      rw [walker_length]
      exact ih
    | threw g s =>
      rw [h] at ih
      exact ih

theorem driver_fault_ne (engine : Engine) (joints : List Joint) (fuel : Nat)
    (hf : joints.length ≤ fuel) :
    ∀ k, k ≤ joints.length →
      (driverUpTo engine joints fuel k).fault? ≠ some .outOfFuel := by
  intro k
  induction k with
  | zero => intro _; simp [driverUpTo_zero, Outcome.fault?]
  | succ k ih =>
    intro hk
    rw [driverUpTo_succ]
    have hlen := driver_length engine joints fuel k
    have hprev := ih (by omega)
    cases h : driverUpTo engine joints fuel k with
    | returned s =>
      rw [h] at hlen
      exact walker_fault_ne _ _ _ _ _ _ (by omega) (count_false_le_of_length hlen hf)
    | threw g s =>
      rw [h] at hprev
      exact hprev

/-- The pass does the same whatever the number of frames allowed, from one
frame per joint on. -/
theorem driver_fuel_le (engine : Engine) (joints : List Joint) (fuel fuel1 : Nat)
    (hf : joints.length ≤ fuel) (hle : fuel ≤ fuel1) :
    ∀ k, k ≤ joints.length →
      driverUpTo engine joints fuel1 k = driverUpTo engine joints fuel k := by
  intro k
  induction k with
  | zero => intro _; rfl
  | succ k ih =>
    intro hk
    rw [driverUpTo_succ, driverUpTo_succ, ih (by omega)]
    have hlen := driver_length engine joints fuel k
    cases h : driverUpTo engine joints fuel k with
    | returned s =>
      rw [h] at hlen
      simp only [Outcome.andThen]
      exact walker_fuel_le _ _ _ _ _ _
        (walker_fault_ne _ _ _ _ _ _ (by omega) (count_false_le_of_length hlen hf)) _ hle
    | threw g s => rfl

theorem invokeFuel_eq_invoke (engine : Engine) (joints : List Joint) (fuel : Nat)
    (hf : joints.length ≤ fuel) :
    invokeAddToSystemFuel engine joints fuel = invokeAddToSystem engine joints := by
  unfold invokeAddToSystem invokeAddToSystemFuel
  rcases Nat.lt_or_ge fuel (joints.length + 1) with h | h
  · have : fuel = joints.length := by omega
    subst this
    exact (driver_fuel_le engine joints _ _ le_rfl (by omega) _ le_rfl).symm
  · exact driver_fuel_le engine joints _ _ (by omega) h _ le_rfl

/-! ## Marking the ancestors -/

theorem chain_mem_cases {R : Nat → Nat → Prop} :
    ∀ (ch : List Nat) (j : Nat), List.Chain' R ch → j ∈ ch →
      ch.getLast? = some j ∨ ∃ q, q ∈ ch ∧ R j q := by
  intro ch
  induction ch with
  | nil => intro j _ hj; simp at hj
  | cons a t ih =>
    intro j hch hj
    cases t with
    | nil =>
      simp at hj
      subst hj
      left
      simp
    | cons b t1 =>
      rw [List.chain'_cons] at hch
      rcases List.mem_cons.1 hj with h | h
      · subst h
        exact Or.inr ⟨b, by simp, hch.1⟩
      · rcases ih j hch.2 h with h1 | ⟨q, hq, hR⟩
        · left
          rw [List.getLast?_cons_cons]
          exact h1
        · exact Or.inr ⟨q, List.mem_cons_of_mem _ hq, hR⟩

theorem parentClosed_reach {joints : List Joint} {bodyMap : BodyMap} {hp : List Bool}
    (hcl : ParentClosed joints bodyMap hp) {i j : Nat} (hi : hp[i]? = some true)
    (h : Relation.ReflTransGen (ParentStep joints bodyMap) i j) : hp[j]? = some true := by
  induction h with
  | refl => exact hi
  | tail _ hstep ih => exact hcl _ _ ih hstep

/-- Marking an ascent keeps the visitation vector closed under the parent
relation. -/
theorem parentClosed_markAll (joints : List Joint) (bodyMap : BodyMap)
    (hv : ValidMap joints bodyMap) (fuel i : Nat) (hp : List Bool)
    (hlen : hp.length = joints.length) (hi : hp[i]? = some false)
    (hc : hp.count false ≤ fuel) (hcl : ParentClosed joints bodyMap hp) :
    ParentClosed joints bodyMap (markAll hp (ascent joints bodyMap fuel i hp)) := by
  obtain ⟨_, _, _, h4, h5⟩ := ascent_spec joints bodyMap hv fuel i hp hlen hi hc
  have hlt := ascent_lt joints bodyMap hv fuel i hp hlen hi hc
  intro j p hj hjp
  rw [markAll_true_iff hlt] at hj ⊢
  rcases hj with hj | hj
  · exact Or.inl (hcl j p hj hjp)
  · rcases chain_mem_cases _ j h4 hj with hlast | ⟨q, hq, hR⟩
    · rcases h5 j hlast with h | ⟨q, hq, h⟩
      · rw [h] at hjp
        cases hjp
      · rw [hq] at hjp
        cases hjp
        exact h
    · have hR1 : parentIndex joints bodyMap j = some q := hR
      rw [hR1] at hjp
      cases hjp
      exact Or.inr hq

theorem walker_marksAncestors (joints : List Joint) (bodyMap : BodyMap)
    (hv : ValidMap joints bodyMap) (fuel i : Nat) (s : PassState)
    (hi : i < joints.length) (hlen : s.hasProcessed.length = joints.length)
    (hf : joints.length ≤ fuel) (hcl : ParentClosed joints bodyMap s.hasProcessed) :
    MarksAncestors joints bodyMap fuel i s := by
  obtain ⟨hp, wc, rc⟩ := s
  simp only at hlen hcl
  obtain ⟨b, hb⟩ : ∃ b, hp[i]? = some b :=
    ⟨_, List.getElem?_eq_getElem (by rw [hlen]; exact hi)⟩
  cases b with
  | true =>
    obtain ⟨f, rfl⟩ : ∃ f, fuel = f + 1 := ⟨fuel - 1, by omega⟩
    refine ⟨_, walker_visited _ _ _ _ _ _ _ _ hb, ?_⟩
    intro j hj
    exact parentClosed_reach hcl hb hj
  | false =>
    have hc := count_false_le_of_length hlen hf
    refine ⟨_, walker_acceptAll_unvisited joints bodyMap hv fuel i hp wc rc hlen hb hc, ?_⟩
    intro j hj
    have hcl1 := parentClosed_markAll joints bodyMap hv fuel i hp hlen hb hc hcl
    obtain ⟨⟨t, ht⟩, _⟩ := ascent_spec joints bodyMap hv fuel i hp hlen hb hc
    have hlt := ascent_lt joints bodyMap hv fuel i hp hlen hb hc
    apply parentClosed_reach hcl1 _ hj
    rw [markAll_true_iff hlt]
    right
    rw [ht]
    exact List.mem_cons_self _ _

/-! ## Marks are never cleared -/

theorem getElem?_set_true_of_true {hp : List Bool} {i j : Nat} (h : hp[j]? = some true) :
    (hp.set i true)[j]? = some true := by
  rw [List.getElem?_set]
  split
  · split
    · rfl
    · rename_i h1 h2
      subst h1
      rw [List.getElem?_eq_none (by omega)] at h
      simp at h
  · exact h

theorem walker_marks (engine : Engine) (joints : List Joint) (bodyMap : BodyMap) :
    ∀ (f i : Nat) (s : PassState),
      (∀ j : Nat, s.hasProcessed[j]? = some true →
        (addToSystemForOneJoint engine joints bodyMap f i s).state.hasProcessed[j]? =
          some true) ∧
      (∀ s1, addToSystemForOneJoint engine joints bodyMap f i s = .returned s1 →
        s1.hasProcessed[i]? = some true) := by
  apply walker_induction engine joints bodyMap
    (fun _ i s o =>
      (∀ j : Nat, s.hasProcessed[j]? = some true → o.state.hasProcessed[j]? = some true) ∧
      (∀ s1, o = .returned s1 → s1.hasProcessed[i]? = some true))
  · intro i s
    exact ⟨fun j h => h, fun s1 h => by cases h⟩
  · intro f i s _
    exact ⟨fun j h => h, fun s1 h => by cases h⟩
  · intro f i s hi
    refine ⟨fun j h => h, fun s1 h => ?_⟩
    cases h
    exact hi
  · intro f i s _ _
    refine ⟨fun j h => ?_, fun s1 h => by cases h⟩
    show (s.hasProcessed.set i true)[j]? = some true
    exact getElem?_set_true_of_true h
  · intro f i s J hi _ _
    have hlt := getElem?_lt_length hi
    refine ⟨fun j h => ?_, fun s1 h => ?_⟩
    · rw [addToSystem_hasProcessed]
      show (s.hasProcessed.set i true)[j]? = some true
      exact getElem?_set_true_of_true h
    · have := addToSystem_hasProcessed engine i (mark i s)
      rw [h] at this
      simp only [Outcome.state, mark, enter] at this
      rw [this, List.getElem?_set_self hlt]
  · intro f i s J p _ _ _ _
    refine ⟨fun j h => ?_, fun s1 h => by cases h⟩
    show (s.hasProcessed.set i true)[j]? = some true
    exact getElem?_set_true_of_true h
  · intro f i s J p hi _ _ _
    have hlt := getElem?_lt_length hi
    refine ⟨fun j h => ?_, fun s1 h => ?_⟩
    · rw [addToSystem_hasProcessed]
      show (s.hasProcessed.set i true)[j]? = some true
      exact getElem?_set_true_of_true h
    · have := addToSystem_hasProcessed engine i (mark i s)
      rw [h] at this
      simp only [Outcome.state, mark, enter] at this
      rw [this, List.getElem?_set_self hlt]
  · intro f i s J p hi _ _ _ ih
    have hlt := getElem?_lt_length hi
    have hmark : (mark i s).hasProcessed[i]? = some true := by
      simp only [mark, enter]
      rw [List.getElem?_set_self hlt]
    cases h : addToSystemForOneJoint engine joints bodyMap f p (mark i s) with
    | returned s2 =>
      rw [h] at ih
      simp only [Outcome.andThen]
      refine ⟨fun j hj => ?_, fun s1 h1 => ?_⟩
      · rw [addToSystem_hasProcessed]
        exact ih.1 j (by
          show (s.hasProcessed.set i true)[j]? = some true
          exact getElem?_set_true_of_true hj)
      · have := addToSystem_hasProcessed engine i s2
        rw [h1] at this
        simp only [Outcome.state] at this
        rw [this]
        exact ih.1 i hmark
    | threw g s2 =>
      rw [h] at ih
      simp only [Outcome.andThen]
      refine ⟨fun j hj => ?_, fun s1 h1 => by cases h1⟩
      exact ih.1 j (by
        show (s.hasProcessed.set i true)[j]? = some true
        exact getElem?_set_true_of_true hj)

/-! ## Which bodies the map covers -/

theorem buildBodyMap_find_eq_none_iff (js : List Joint) (b : Body) :
    (buildBodyMap js).find b = none ↔ ∀ J ∈ js, J.body ≠ b := by
  induction js using List.reverseRecOn with
  | nil => simp [buildBodyMap, buildBodyMapFrom, BodyMap.find, BodyMap.empty]
  | append_singleton js J ih =>
    rw [buildBodyMap_append]
    simp only [BodyMap.find, BodyMap.assign] at ih ⊢
    by_cases hb : b = J.body
    · simp only [hb, if_true]
      constructor
      · intro h
        cases h
      · intro h
        exact absurd rfl (h J (by simp))
    · simp only [hb, if_false, ih, List.mem_append, List.mem_singleton]
      constructor
      · rintro h J1 (h1 | h1)
        · exact h J1 h1
        · subst h1
          exact fun e => hb e.symm
      · intro h J1 h1
        exact h J1 (Or.inl h1)

/-! ## A registration that fails -/

theorem registerAll_accepted (engine : Engine) (hp : List Bool) (wc : List Nat) :
    ∀ (l rc : List Nat), (∀ p1 y p2, l = p1 ++ y :: p2 → engine (rc ++ p1) y = true) →
      registerAll engine l ⟨hp, wc, rc⟩ = .returned ⟨hp, wc, rc ++ l⟩ := by
  intro l
  induction l with
  | nil => intro rc _; simp [registerAll]
  | cons a t ih =>
    intro rc h
    have ha : engine rc a = true := by
      have := h [] a t rfl
      simpa using this
    have ht := ih (rc ++ [a]) (by
      intro p1 y p2 hsplit
      have := h (a :: p1) y p2 (by rw [hsplit]; rfl)
      simpa using this)
    simp only [registerAll, addToSystem, ha, if_true, Outcome.andThen]
    rw [ht]
    simp

theorem registerAll_rejected (engine : Engine) (hp : List Bool) (wc : List Nat)
    (l rc pre : List Nat) (x : Nat) (post : List Nat) (hl : l = pre ++ x :: post)
    (hacc : ∀ p1 y p2, pre = p1 ++ y :: p2 → engine (rc ++ p1) y = true)
    (hrej : engine (rc ++ pre) x = false) :
    registerAll engine l ⟨hp, wc, rc⟩ =
      .threw (.registrationFailure x) ⟨hp, wc, rc ++ pre ++ [x]⟩ := by
  rw [hl, registerAll_append, registerAll_accepted engine hp wc pre rc hacc]
  simp [Outcome.andThen, registerAll, addToSystem, hrej]

theorem accepted_of_append {engine : Engine} {l1 l2 : List Nat}
    (h : Accepted engine (l1 ++ l2)) : Accepted engine l1 := by
  intro p1 y p2 hsplit
  exact h p1 y (p2 ++ l2) (by rw [hsplit]; simp)

/-- As long as the engine accepts the calls of the failure-free pass, the pass
runs as the failure-free one. -/
theorem driver_accepted (engine : Engine) (joints : List Joint) (fuel : Nat)
    (hf : joints.length ≤ fuel) :
    ∀ k, k ≤ joints.length → ∀ sT, driverUpTo acceptAll joints fuel k = .returned sT →
      Accepted engine sT.addToSystemCalls →
      driverUpTo engine joints fuel k = .returned sT := by
  intro k
  induction k with
  | zero =>
    intro _ sT hT _
    rw [driverUpTo_zero] at hT ⊢
    exact hT
  | succ k ih =>
    intro hk sT hT hacc
    obtain ⟨s, hs, inv⟩ := driver_inv joints fuel hf k (by omega)
    have hv := buildBodyMap_valid joints
    rcases driver_step joints fuel k hf (by omega) hs inv.length_eq with ⟨hb, h⟩ | ⟨hb, h⟩
    · rw [hT] at h
      cases h
      rw [driverUpTo_succ, ih (by omega) s hs hacc]
      obtain ⟨f, rfl⟩ : ∃ f, fuel = f + 1 := ⟨fuel - 1, by omega⟩
      exact walker_visited _ _ _ _ _ _ _ _ hb
    · rw [hT] at h
      cases h
      simp only at hacc
      rw [driverUpTo_succ, ih (by omega) s hs (accepted_of_append hacc)]
      simp only [Outcome.andThen]
      obtain ⟨hp, wc, rc⟩ := s
      rw [walker_eq_registerAll engine joints _ hv fuel k hp wc rc inv.length_eq hb
        (count_false_le_of_length inv.length_eq hf)]
      apply registerAll_accepted
      intro p1 y p2 hsplit
      exact hacc (rc ++ p1) y p2 (by simp only at hsplit ⊢; rw [hsplit]; simp)

/-- The first call the engine rejects ends the pass, on that call. -/
theorem driver_rejected (engine : Engine) (joints : List Joint) (fuel : Nat)
    (hf : joints.length ≤ fuel) :
    ∀ k, k ≤ joints.length → ∀ sT, driverUpTo acceptAll joints fuel k = .returned sT →
      ∀ pre x post, sT.addToSystemCalls = pre ++ x :: post → Accepted engine pre →
      engine pre x = false →
      ∃ s, driverUpTo engine joints fuel k = .threw (.registrationFailure x) s ∧
        s.addToSystemCalls = pre ++ [x] := by
  intro k
  induction k with
  | zero =>
    intro _ sT hT pre x post hsplit _ _
    rw [driverUpTo_zero] at hT
    cases hT
    simp [initialState] at hsplit
  | succ k ih =>
    intro hk sT hT pre x post hsplit hacc hrej
    obtain ⟨s, hs, inv⟩ := driver_inv joints fuel hf k (by omega)
    have hv := buildBodyMap_valid joints
    have earlier : ∀ post1, s.addToSystemCalls = pre ++ x :: post1 →
        ∃ s1, driverUpTo engine joints fuel (k + 1) = .threw (.registrationFailure x) s1 ∧
          s1.addToSystemCalls = pre ++ [x] := by
      intro post1 h1
      obtain ⟨s1, h2, h3⟩ := ih (by omega) s hs pre x post1 h1 hacc hrej
      refine ⟨s1, ?_, h3⟩
      rw [driverUpTo_succ, h2]
      rfl
    rcases driver_step joints fuel k hf (by omega) hs inv.length_eq with ⟨hb, h⟩ | ⟨hb, h⟩
    · rw [hT] at h
      cases h
      exact earlier post hsplit
    · rw [hT] at h
      cases h
      simp only at hsplit
      have later : ∀ mid, pre = s.addToSystemCalls ++ mid →
          (ascent joints (buildBodyMap joints) fuel k s.hasProcessed).reverse =
            mid ++ x :: post →
          ∃ s1, driverUpTo engine joints fuel (k + 1) =
              .threw (.registrationFailure x) s1 ∧
            s1.addToSystemCalls = pre ++ [x] := by
        intro mid hpre hch
        have hacc1 : Accepted engine s.addToSystemCalls := by
          rw [hpre] at hacc
          exact accepted_of_append hacc
        rw [driverUpTo_succ, driver_accepted engine joints fuel hf k (by omega) s hs hacc1]
        simp only [Outcome.andThen]
        obtain ⟨hp, wc, rc⟩ := s
        rw [walker_eq_registerAll engine joints _ hv fuel k hp wc rc inv.length_eq hb
          (count_false_le_of_length inv.length_eq hf)]
        simp only at hpre hch
        rw [registerAll_rejected engine _ _ _ rc mid x post hch]
        · exact ⟨_, rfl, by rw [hpre]⟩
        · intro p1 y p2 hmid
          exact hacc (rc ++ p1) y p2 (by rw [hpre, hmid]; simp)
        · rw [← hpre]
          exact hrej
      rcases List.append_eq_append_iff.1 hsplit with ⟨a1, h1, h2⟩ | ⟨c1, h1, h2⟩
      · exact later a1 h1 h2
      · cases c1 with
        | nil =>
          simp only [List.append_nil, List.nil_append] at h1 h2
          exact later [] (by simp [h1]) (by simp [h2])
        | cons c c2 =>
          simp only [List.cons_append, List.cons.injEq] at h2
          obtain ⟨hc, _⟩ := h2
          subst hc
          exact earlier c2 h1

/-- The pass on an engine that rejects one of the calls of the failure-free
pass, having accepted the calls before it. -/
theorem pass_first_failure (engine : Engine) (joints : List Joint) (sT : PassState)
    (hT : invokeAddToSystem acceptAll joints = .returned sT) (pre : List Nat) (k : Nat)
    (post : List Nat) (hsplit : sT.addToSystemCalls = pre ++ k :: post)
    (hacc : Accepted engine pre) (hrej : engine pre k = false) :
    ∃ s, invokeAddToSystem engine joints = .threw (.registrationFailure k) s ∧
      s.addToSystemCalls = pre ++ [k] :=
  driver_rejected engine joints (joints.length + 1) (by omega) joints.length le_rfl sT hT
    pre k post hsplit hacc hrej

/-! ## Cycles -/

theorem indexOf_lt_of_split {A B : List Nat} {x y : Nat} (hy : y ∈ A) (hx : x ∉ A) :
    (A ++ x :: B).indexOf y < (A ++ x :: B).indexOf x := by
  rw [List.indexOf_append_of_mem hy, List.indexOf_append_of_not_mem hx,
    List.indexOf_cons_self]
  have := List.indexOf_lt_length.2 hy
  omega

/-- A joint registered by the pass was marked by the ascent of one of the
iterations of the driver loop. -/
theorem driver_find_step (joints : List Joint) (fuel : Nat) (hf : joints.length ≤ fuel) :
    ∀ k, k ≤ joints.length → ∀ s, driverUpTo acceptAll joints fuel k = .returned s →
      ∀ x, x ∈ s.addToSystemCalls →
      ∃ j s0, j < k ∧ driverUpTo acceptAll joints fuel j = .returned s0 ∧
        s0.hasProcessed[j]? = some false ∧
        x ∈ ascent joints (buildBodyMap joints) fuel j s0.hasProcessed := by
  intro k
  induction k with
  | zero =>
    intro _ s hs x hx
    rw [driverUpTo_zero] at hs
    cases hs
    simp [initialState] at hx
  | succ k ih =>
    intro hk s1 hs1 x hx
    obtain ⟨s, hs, inv⟩ := driver_inv joints fuel hf k (by omega)
    have older : x ∈ s.addToSystemCalls →
        ∃ j s0, j < k + 1 ∧ driverUpTo acceptAll joints fuel j = .returned s0 ∧
          s0.hasProcessed[j]? = some false ∧
          x ∈ ascent joints (buildBodyMap joints) fuel j s0.hasProcessed := by
      intro h
      obtain ⟨j, s0, hj, h1, h2, h3⟩ := ih (by omega) s hs x h
      exact ⟨j, s0, by omega, h1, h2, h3⟩
    rcases driver_step joints fuel k hf (by omega) hs inv.length_eq with ⟨_, h⟩ | ⟨hb, h⟩
    · rw [hs1] at h
      cases h
      exact older hx
    · rw [hs1] at h
      cases h
      rcases List.mem_append.1 hx with h1 | h1
      · exact older h1
      · exact ⟨k, s, by omega, hs, hb, List.mem_reverse.1 h1⟩

/-- The logs only grow along the driver loop. -/
theorem driver_logs_grow (joints : List Joint) (fuel : Nat) (hf : joints.length ≤ fuel)
    (j : Nat) (s0 : PassState) (hs0 : driverUpTo acceptAll joints fuel j = .returned s0) :
    ∀ k, j ≤ k → k ≤ joints.length →
      ∃ s w r, driverUpTo acceptAll joints fuel k = .returned s ∧
        s.walkerCalls = s0.walkerCalls ++ w ∧ s.addToSystemCalls = s0.addToSystemCalls ++ r := by
  intro k hjk
  induction k, hjk using Nat.le_induction with
  | base => intro _; exact ⟨s0, [], [], hs0, by simp, by simp⟩
  | succ k _ ih =>
    intro hk
    obtain ⟨s, w, r, hs, hw, hr⟩ := ih (by omega)
    have inv := driver_inv_of_eq joints fuel hf k (by omega) hs
    rcases driver_step joints fuel k hf (by omega) hs inv.length_eq with ⟨_, h⟩ | ⟨_, h⟩
    · exact ⟨_, w ++ [k], r, h, by simp [hw], hr⟩
    · exact ⟨_, w ++ ascent joints (buildBodyMap joints) fuel k s.hasProcessed,
        r ++ (ascent joints (buildBodyMap joints) fuel k s.hasProcessed).reverse, h,
        by simp [hw], by simp [hr]⟩

/-- The joint of a cycle on which the walker is called first is registered
after every other joint of the cycle. -/
theorem first_encountered_last (joints : List Joint) (fuel : Nat)
    (hf : joints.length ≤ fuel) (s : PassState)
    (hs : driverUpTo acceptAll joints fuel joints.length = .returned s) (x : Nat)
    (hx : x ∈ s.walkerCalls)
    (hfirst : ∀ y, Relation.ReflTransGen (ParentStep joints (buildBodyMap joints)) x y →
      s.walkerCalls.indexOf x ≤ s.walkerCalls.indexOf y)
    (y : Nat) (hy : Relation.ReflTransGen (ParentStep joints (buildBodyMap joints)) x y)
    (hne : y ≠ x) :
    y ∈ s.addToSystemCalls ∧ x ∈ s.addToSystemCalls ∧
      s.addToSystemCalls.indexOf y < s.addToSystemCalls.indexOf x := by
  have hv := buildBodyMap_valid joints
  have inv := driver_inv_of_eq joints fuel hf _ le_rfl hs
  have hxr : x ∈ s.addToSystemCalls := (inv.called_iff x).1 hx
  obtain ⟨j, s0, hj, hs0, hb, hxch⟩ := driver_find_step joints fuel hf _ le_rfl s hs x hxr
  have inv0 := driver_inv_of_eq joints fuel hf j (by omega) hs0
  have hc := count_false_le_of_length inv0.length_eq hf
  obtain ⟨_, h2, h3, h4, h5⟩ :=
    ascent_spec joints _ hv fuel j s0.hasProcessed inv0.length_eq hb hc
  -- the state after iteration `j`, and the final logs
  have hstep : driverUpTo acceptAll joints fuel (j + 1) = .returned
      ⟨markAll s0.hasProcessed (ascent joints (buildBodyMap joints) fuel j s0.hasProcessed),
        s0.walkerCalls ++ ascent joints (buildBodyMap joints) fuel j s0.hasProcessed,
        s0.addToSystemCalls ++
          (ascent joints (buildBodyMap joints) fuel j s0.hasProcessed).reverse⟩ := by
    rcases driver_step joints fuel j hf (by omega) hs0 inv0.length_eq with ⟨hb1, _⟩ | ⟨_, h⟩
    · rw [hb] at hb1
      cases hb1
    · exact h
  obtain ⟨s1, w, r, hs1, hw, hr⟩ :=
    driver_logs_grow joints fuel hf (j + 1) _ hstep joints.length (by omega) le_rfl
  rw [hs] at hs1
  cases hs1
  simp only at hw hr
  -- the ascent, split at `x`
  obtain ⟨pre, post, hsplit, hxpre⟩ := List.eq_append_cons_of_mem hxch
  rw [hsplit] at hw hr h3 h4 h5 h2
  have hxpost : x ∉ post := by
    have := (List.nodup_append.1 h3).2.1
    exact (List.nodup_cons.1 this).1
  have hx0 : x ∉ s0.walkerCalls := by
    intro hmem
    have := (inv0.marked_iff x).2 ((inv0.called_iff x).1 hmem)
    rw [h2 x (by simp)] at this
    cases this
  have hxnot : x ∉ s0.walkerCalls ++ pre := by
    intro hmem
    rcases List.mem_append.1 hmem with h | h
    · exact hx0 h
    · exact hxpre h
  have hwc : s.walkerCalls = (s0.walkerCalls ++ pre) ++ x :: (post ++ w) := by
    rw [hw]
    simp
  -- no joint of the cycle was called before `x`
  have hnone : ∀ z, Relation.ReflTransGen (ParentStep joints (buildBodyMap joints)) x z →
      z ∉ s0.walkerCalls ++ pre := by
    intro z hz hmem
    have h1 := hfirst z hz
    rw [hwc, List.indexOf_append_of_mem hmem, List.indexOf_append_of_not_mem hxnot,
      List.indexOf_cons_self] at h1
    have := List.indexOf_lt_length.2 hmem
    omega
  -- hence the cycle lies in the ascent, from `x` on
  have hin : ∀ z, Relation.ReflTransGen (ParentStep joints (buildBodyMap joints)) x z →
      z ∈ x :: post := by
    intro z hz
    induction hz with
    | refl => simp
    | tail hxa hab ih =>
      rename_i a b
      have hxb : Relation.ReflTransGen (ParentStep joints (buildBodyMap joints)) x b :=
        Relation.ReflTransGen.tail hxa hab
      have hbnot := hnone b hxb
      have hab1 : parentIndex joints (buildBodyMap joints) a = some b := hab
      have inAscent : b ∈ pre ++ x :: post → b ∈ x :: post := by
        intro hmem
        rcases List.mem_append.1 hmem with h | h
        · exact absurd (List.mem_append_right _ h) hbnot
        · exact h
      have hach : a ∈ pre ++ x :: post := List.mem_append_right _ ih
      rcases chain_mem_cases _ a h4 hach with hlast | ⟨q, hq, hR⟩
      · rcases h5 a hlast with h | ⟨q, hq, h | h⟩
        · rw [h] at hab1
          cases hab1
        · rw [hq] at hab1
          cases hab1
          have := (inv0.called_iff b).2 ((inv0.marked_iff b).1 h)
          exact absurd (List.mem_append_left _ this) hbnot
        · rw [hq] at hab1
          cases hab1
          exact inAscent h
      · have hR1 : parentIndex joints (buildBodyMap joints) a = some q := hR
        rw [hR1] at hab1
        cases hab1
        exact inAscent hq
  have hypost : y ∈ post := by
    rcases List.mem_cons.1 (hin y hy) with h | h
    · exact absurd h hne
    · exact h
  have hrc : s.addToSystemCalls =
      (s0.addToSystemCalls ++ post.reverse) ++ x :: (pre.reverse ++ r) := by
    rw [hr]
    simp
  have hyA : y ∈ s0.addToSystemCalls ++ post.reverse :=
    List.mem_append_right _ (List.mem_reverse.2 hypost)
  have hxA : x ∉ s0.addToSystemCalls ++ post.reverse := by
    intro hmem
    rcases List.mem_append.1 hmem with h | h
    · exact hx0 ((inv0.called_iff x).2 h)
    · exact hxpost (List.mem_reverse.1 h)
  refine ⟨?_, hxr, ?_⟩
  · rw [hrc]
    exact List.mem_append_left _ hyA
  · rw [hrc]
    exact indexOf_lt_of_split hyA hxA

/-- Every joint reached from a joint on a cycle lies on that cycle. -/
theorem onCycle_of_reach (joints : List Joint) (bodyMap : BodyMap) {x0 x : Nat}
    (h0 : OnCycle joints bodyMap x0)
    (hx : Relation.ReflTransGen (ParentStep joints bodyMap) x0 x) :
    OnCycle joints bodyMap x := by
  induction hx with
  | refl => exact h0
  | tail hxa hab ih =>
    rename_i a b
    obtain ⟨c, hac, hca⟩ := Relation.TransGen.head'_iff.1 ih
    have h1 : parentIndex joints bodyMap a = some b := hab
    have h2 : parentIndex joints bodyMap a = some c := hac
    rw [h1] at h2
    cases h2
    exact Relation.TransGen.tail' hca hab

/-- Among the joints of a cycle there is one on which the walker is called
first. -/
theorem exists_first_encountered (joints : List Joint) (fuel : Nat)
    (hf : joints.length ≤ fuel) (s : PassState)
    (hs : driverUpTo acceptAll joints fuel joints.length = .returned s) (x0 : Nat)
    (h0 : OnCycle joints (buildBodyMap joints) x0) :
    ∃ x, Relation.ReflTransGen (ParentStep joints (buildBodyMap joints)) x0 x ∧
      FirstEncountered joints (buildBodyMap joints) s.walkerCalls x := by
  have inv := driver_inv_of_eq joints fuel hf _ le_rfl hs
  have hmin : ∀ n y, Relation.ReflTransGen (ParentStep joints (buildBodyMap joints)) x0 y →
      s.walkerCalls.indexOf y = n →
      ∃ x, Relation.ReflTransGen (ParentStep joints (buildBodyMap joints)) x0 x ∧
        ∀ z, Relation.ReflTransGen (ParentStep joints (buildBodyMap joints)) x0 z →
          s.walkerCalls.indexOf x ≤ s.walkerCalls.indexOf z := by
    intro n
    induction n using Nat.strong_induction_on with
    | _ n ih =>
      intro y hy hn
      by_cases hall : ∀ z, Relation.ReflTransGen (ParentStep joints (buildBodyMap joints)) x0 z →
          s.walkerCalls.indexOf y ≤ s.walkerCalls.indexOf z
      · exact ⟨y, hy, hall⟩
      · push_neg at hall
        obtain ⟨z, hz, hlt⟩ := hall
        exact ih _ (by omega) z hz rfl
  obtain ⟨x, hx, hle⟩ := hmin _ x0 Relation.ReflTransGen.refl rfl
  have hcyc := onCycle_of_reach joints _ h0 hx
  refine ⟨x, hx, hcyc, ?_, ?_⟩
  · obtain ⟨c, hxc, _⟩ := Relation.TransGen.head'_iff.1 hcyc
    have hlt : x < joints.length := by
      have h1 : parentIndex joints (buildBodyMap joints) x = some c := hxc
      unfold parentIndex at h1
      by_contra hcon
      rw [List.getElem?_eq_none (by omega)] at h1
      simp at h1
    exact (inv.called_iff x).2 (inv.upTo x hlt)
  · intro y hy
    exact hle y (hx.trans hy)

/-! ## A pass that returns ran as the failure-free pass -/

/-- A log the engine does not accept throughout has a first call it rejects. -/
theorem first_rejection (engine : Engine) :
    ∀ l : List Nat, ¬ Accepted engine l →
      ∃ pre x post, l = pre ++ x :: post ∧ Accepted engine pre ∧ engine pre x = false := by
  intro l
  induction l using List.reverseRecOn with
  | nil =>
    intro h
    exfalso
    apply h
    intro p1 y p2 hsplit
    simp at hsplit
  | append_singleton l a ih =>
    intro h
    by_cases hl : Accepted engine l
    · refine ⟨l, a, [], rfl, hl, ?_⟩
      by_contra hcon
      apply h
      intro p1 y p2 hsplit
      cases p2 using List.reverseRecOn with
      | nil =>
        have h1 : l ++ [a] = p1 ++ [y] := hsplit
        obtain ⟨h2, h3⟩ := List.append_inj' h1 rfl
        simp only [List.cons.injEq, and_true] at h3
        subst h2 h3
        simpa using hcon
      | append_singleton p3 b _ =>
        have h1 : l ++ [a] = (p1 ++ y :: p3) ++ [b] := by
          rw [hsplit]
          simp
        obtain ⟨h2, _⟩ := List.append_inj' h1 rfl
        exact hl p1 y p3 h2
    · obtain ⟨pre, x, post, h1, h2, h3⟩ := ih hl
      exact ⟨pre, x, post ++ [a], by rw [h1]; simp, h2, h3⟩

/-- Whatever the engine, iterations of the driver loop that have all returned
have done what the failure-free pass does. -/
theorem driver_returned_eq (engine : Engine) (joints : List Joint) (fuel : Nat)
    (hf : joints.length ≤ fuel) (k : Nat) (hk : k ≤ joints.length) (s : PassState)
    (hs : driverUpTo engine joints fuel k = .returned s) :
    driverUpTo acceptAll joints fuel k = .returned s := by
  obtain ⟨sT, hT, _⟩ := driver_inv joints fuel hf k hk
  by_cases hacc : Accepted engine sT.addToSystemCalls
  · have := driver_accepted engine joints fuel hf k hk sT hT hacc
    rw [hs] at this
    cases this
    exact hT
  · obtain ⟨pre, x, post, h1, h2, h3⟩ := first_rejection engine _ hacc
    obtain ⟨s1, h4, _⟩ := driver_rejected engine joints fuel hf k hk sT hT pre x post h1 h2 h3
    rw [hs] at h4
    cases h4

/-! ## Index safety -/

theorem addToSystem_fault_ne_range (engine : Engine) (i : Nat) (s : PassState) :
    (addToSystem engine i s).fault? ≠ some .outOfRange := by
  unfold addToSystem
  split <;> simp [Outcome.fault?]

/-- With a map whose entries are indices of the set, the walker called on an
index of the set never reads or writes outside the visitation vector or the
set. -/
theorem walker_fault_ne_range (engine : Engine) (joints : List Joint) (bodyMap : BodyMap)
    (hv : ValidMap joints bodyMap) :
    ∀ (f i : Nat) (s : PassState), s.hasProcessed.length = joints.length →
      i < joints.length →
      (addToSystemForOneJoint engine joints bodyMap f i s).fault? ≠ some .outOfRange := by
  apply walker_induction engine joints bodyMap
    (fun _ i s o => s.hasProcessed.length = joints.length → i < joints.length →
      o.fault? ≠ some .outOfRange)
  · intro i s _ _; simp [Outcome.fault?]
  · intro f i s h hlen hi
    rw [List.getElem?_eq_getElem (by omega)] at h
    cases h
  · intro f i s _ _ _; simp [Outcome.fault?]
  · intro f i s _ h _ hi
    rw [List.getElem?_eq_getElem hi] at h
    cases h
  · intro f i s J _ _ _ _ _; exact addToSystem_fault_ne_range _ _ _
  · intro f i s J p _ _ hm h hlen _
    have hp := hv _ _ hm
    simp only [mark, enter] at h
    rw [List.getElem?_eq_getElem (by rw [List.length_set]; omega)] at h
    cases h
  · intro f i s J p _ _ _ _ _ _; exact addToSystem_fault_ne_range _ _ _
  · intro f i s J p _ _ hm _ ih hlen _
    have hp := hv _ _ hm
    have h1 := ih (by simp only [mark, enter]; rw [List.length_set]; exact hlen) hp
    cases h : addToSystemForOneJoint engine joints bodyMap f p (mark i s) with
    | returned s1 => exact addToSystem_fault_ne_range _ _ _
    | threw g s1 =>
      rw [h] at h1
      exact h1

theorem driver_fault_ne_range (engine : Engine) (joints : List Joint) (fuel : Nat) :
    ∀ k, k ≤ joints.length →
      (driverUpTo engine joints fuel k).fault? ≠ some .outOfRange := by
  intro k
  induction k with
  | zero => intro _; simp [driverUpTo_zero, Outcome.fault?]
  | succ k ih =>
    intro hk
    rw [driverUpTo_succ]
    have hlen := driver_length engine joints fuel k
    have hprev := ih (by omega)
    cases h : driverUpTo engine joints fuel k with
    | returned s =>
      rw [h] at hlen
      exact walker_fault_ne_range engine joints _ (buildBodyMap_valid joints) fuel k s hlen
        (by omega)
    | threw g s =>
      rw [h] at hprev
      exact hprev

/-! ## A storage order that is already ground-outward -/

/-- When the map gives, for the parent body of every joint, nothing or a joint
stored before it, the driver loop registers joint `k` at iteration `k`, by one
call of the walker, whatever the number of frames allowed (one at least). -/
theorem driver_ground_outward (joints : List Joint) (f : Nat)
    (hord : ∀ i p, parentIndex joints (buildBodyMap joints) i = some p → p < i) :
    ∀ k, k ≤ joints.length →
      ∃ hp, driverUpTo acceptAll joints (f + 1) k = .returned ⟨hp, List.range k, List.range k⟩ ∧
        hp.length = joints.length ∧
        ∀ j, j < joints.length → hp[j]? = some (decide (j < k)) := by
  intro k
  induction k with
  | zero =>
    intro _
    refine ⟨_, driverUpTo_zero _ _ _, by simp, ?_⟩
    intro j hj
    rw [List.getElem?_replicate]
    simp [hj]
  | succ k ih =>
    intro hk
    obtain ⟨hp, hs, hlen, hmarks⟩ := ih (by omega)
    have hk0 : hp[k]? = some false := by
      rw [hmarks k (by omega)]
      simp
    obtain ⟨J, hJ⟩ : ∃ J, joints[k]? = some J :=
      ⟨joints[k], List.getElem?_eq_getElem (by omega)⟩
    have hstep : driverUpTo acceptAll joints (f + 1) (k + 1) =
        .returned ⟨hp.set k true, List.range (k + 1), List.range (k + 1)⟩ := by
      rw [driverUpTo_succ, hs]
      simp only [Outcome.andThen, List.range_succ]
      cases hm : (buildBodyMap joints).find J.parentBody with
      | none =>
        simp [addToSystemForOneJoint, hk0, hJ, hm, Outcome.andThen, addToSystem, acceptAll]
      | some p =>
        have hpk : p < k := by
          apply hord k p
          simp [parentIndex, hJ, hm]
        have hp1 : (hp.set k true)[p]? = some true := by
          rw [List.getElem?_set_ne (by omega), hmarks p (by omega)]
          simp [hpk]
        simp [addToSystemForOneJoint, hk0, hJ, hm, hp1, Outcome.andThen, addToSystem,
          acceptAll]
    refine ⟨_, hstep, by rw [List.length_set]; exact hlen, ?_⟩
    intro j hj
    by_cases hjk : j = k
    · subst hjk
      rw [List.getElem?_set_self (by omega)]
      simp
    · rw [List.getElem?_set_ne (fun e => hjk e.symm), hmarks j hj]
      congr 1
      simp only [decide_eq_decide]
      omega

/-! # The statements of the specification -/

/-- C1: in a well-formed joint set (child bodies pairwise distinct, no cycle
among the parent-body references), whenever the parent body of joint `J` is the
child body of joint `P`, the pass registers both and the registration call of
`P` comes strictly before that of `J`, whatever the storage order. -/
theorem C1_parent_registered_before_child (joints : List Joint)
    (hu : UniqueChildBodies joints) (ha : Acyclic joints) (J P : Nat)
    (h : ParentJoint joints J P) :
    ∃ s, invokeAddToSystem acceptAll joints = .returned s ∧
      P ∈ s.addToSystemCalls ∧ J ∈ s.addToSystemCalls ∧
      s.addToSystemCalls.indexOf P < s.addToSystemCalls.indexOf J :=
  pass_parent_before joints hu ha J P h

/-- Two independent chains off ground (body 0), stored children first: joint 0
hangs from joint 3 and joint 1 from joint 2. -/
theorem C1_parent_registered_before_child_witness :
    UniqueChildBodies [⟨1, 2⟩, ⟨3, 4⟩, ⟨0, 3⟩, ⟨0, 1⟩] ∧
    Acyclic [⟨1, 2⟩, ⟨3, 4⟩, ⟨0, 3⟩, ⟨0, 1⟩] ∧
    ParentJoint [⟨1, 2⟩, ⟨3, 4⟩, ⟨0, 3⟩, ⟨0, 1⟩] 0 3 ∧
    ∃ s, invokeAddToSystem acceptAll [⟨1, 2⟩, ⟨3, 4⟩, ⟨0, 3⟩, ⟨0, 1⟩] = .returned s ∧
      3 ∈ s.addToSystemCalls ∧ 0 ∈ s.addToSystemCalls ∧
      s.addToSystemCalls.indexOf 3 < s.addToSystemCalls.indexOf 0 :=
  ⟨by unfold UniqueChildBodies; decide,
   acyclic_of_rank _ (fun j => [1, 1, 0, 0].getD j 0) (by decide),
   by decide,
   C1_parent_registered_before_child [⟨1, 2⟩, ⟨3, 4⟩, ⟨0, 3⟩, ⟨0, 1⟩]
     (by unfold UniqueChildBodies; decide)
     (acyclic_of_rank _ (fun j => [1, 1, 0, 0].getD j 0) (by decide)) 0 3 (by decide)⟩

/-- C2: for every joint set, no registration failing, one pass returns, its
registration calls are a permutation of the indices `0, ..., N - 1` (every
joint exactly once) and every entry of `hasProcessed` is true at the end. -/
theorem C2_every_joint_registered_once (joints : List Joint) :
    ∃ s, invokeAddToSystem acceptAll joints = .returned s ∧
      s.addToSystemCalls.Perm (List.range joints.length) ∧
      (∀ j, j < joints.length → s.addToSystemCalls.count j = 1) ∧
      s.addToSystemCalls.length = joints.length ∧
      s.hasProcessed = List.replicate joints.length true := by
  obtain ⟨s, hs, inv, hperm, hall⟩ := pass_complete joints
  refine ⟨s, hs, hperm, ?_, ?_, hall⟩
  · intro j hj
    exact List.count_eq_one_of_mem inv.nodup (inv.upTo j hj)
  · rw [hperm.length_eq, List.length_range]

/-- C3: a single chain Ground-J0-J1-...-J(N-1), in any storage order, is
registered in exactly the order J0, J1, ..., J(N-1). The list `order` gives the
storage index of J0, of J1, and so on: it is a permutation of the indices, the
parent body of its first joint is the child body of no joint (ground), the
parent body of each later joint is the child body of the joint before it, and
child bodies are pairwise distinct. -/
theorem C3_chain_registered_from_ground (joints : List Joint) (order : List Nat)
    (hperm : order.Perm (List.range joints.length)) (hu : UniqueChildBodies joints)
    (hground : ∀ a, order[0]? = some a → ∀ P, ¬ ParentJoint joints a P)
    (hchain : ∀ k a b, order[k]? = some a → order[k + 1]? = some b →
      ParentJoint joints b a) :
    ∃ s, invokeAddToSystem acceptAll joints = .returned s ∧ s.addToSystemCalls = order :=
  chain_registered_in_order joints order hperm hu hground hchain

/-- The chain Ground-J0-J1-J2 stored as `[J2, J0, J1]` (bodies: ground 0, then
1, 2, 3) is registered as J0, J1, J2, that is, by storage index, `[1, 2, 0]`. -/
theorem C3_chain_registered_from_ground_witness :
    [1, 2, 0].Perm (List.range [(⟨2, 3⟩ : Joint), ⟨0, 1⟩, ⟨1, 2⟩].length) ∧
    UniqueChildBodies [⟨2, 3⟩, ⟨0, 1⟩, ⟨1, 2⟩] ∧
    ∃ s, invokeAddToSystem acceptAll [⟨2, 3⟩, ⟨0, 1⟩, ⟨1, 2⟩] = .returned s ∧
      s.addToSystemCalls = [1, 2, 0] :=
  ⟨by decide, by unfold UniqueChildBodies; decide,
   C3_chain_registered_from_ground [⟨2, 3⟩, ⟨0, 1⟩, ⟨1, 2⟩] [1, 2, 0] (by decide)
     (by unfold UniqueChildBodies; decide)
     (by
       intro a ha P hP
       simp at ha
       subst ha
       have hlt := (parentJoint_lt _ hP).2
       simp at hlt
       interval_cases P <;> revert hP <;> decide)
     (by
       intro k a b ha hb
       match k, ha, hb with
       | 0, ha, hb =>
         simp at ha hb
         subst ha hb
         decide
       | 1, ha, hb =>
         simp at ha hb
         subst ha hb
         decide
       | k + 2, _, hb => simp at hb)⟩

/-- C4, as stated, fails: with the chain Ground-J0-J1 stored in that order and
the visitation vector `[false, true]`, the walker called on joint 1 returns at
once, and joint 0, which the map gives for the parent body of joint 1, stays
unmarked. -/
theorem C4_counterexample :
    ValidMap [⟨0, 1⟩, ⟨1, 2⟩] (buildBodyMap [⟨0, 1⟩, ⟨1, 2⟩]) ∧
    1 < [(⟨0, 1⟩ : Joint), ⟨1, 2⟩].length ∧
    ¬ MarksAncestors [⟨0, 1⟩, ⟨1, 2⟩] (buildBodyMap [⟨0, 1⟩, ⟨1, 2⟩]) 3 1
      ⟨[false, true], [], []⟩ := by
  refine ⟨buildBodyMap_valid _, by decide, ?_⟩
  rintro ⟨s1, h1, h2⟩
  have h0 : addToSystemForOneJoint acceptAll [⟨0, 1⟩, ⟨1, 2⟩]
      (buildBodyMap [⟨0, 1⟩, ⟨1, 2⟩]) 3 1 ⟨[false, true], [], []⟩ =
      .returned ⟨[false, true], [1], []⟩ := by decide
  rw [h0] at h1
  cases h1
  have hstep : ParentStep [⟨0, 1⟩, ⟨1, 2⟩] (buildBodyMap [⟨0, 1⟩, ⟨1, 2⟩]) 1 0 := by
    show parentIndex _ _ 1 = some 0
    decide
  have := h2 0 (Relation.ReflTransGen.single hstep)
  simp at this

/-- C4, amended: for every map whose entries are indices of the joint set,
every visitation vector (of the size of the set) closed under the parent
relation of the map, and every index `i` of the set, the walker called on `i`
returns (no registration failing, one frame per joint allowed), and joint `i`
and every joint reached from `i` along the parent-body chain are marked. -/
theorem C4_walker_marks_ancestors_when_closed (joints : List Joint) (bodyMap : BodyMap)
    (hv : ValidMap joints bodyMap) (fuel i : Nat) (s : PassState)
    (hi : i < joints.length) (hlen : s.hasProcessed.length = joints.length)
    (hf : joints.length ≤ fuel) (hcl : ParentClosed joints bodyMap s.hasProcessed) :
    MarksAncestors joints bodyMap fuel i s :=
  walker_marksAncestors joints bodyMap hv fuel i s hi hlen hf hcl

/-- The chain Ground-J0-J1-J2 stored in that order, joint 0 being marked: the
walker called on joint 2 marks joints 2 and 1. -/
theorem C4_walker_marks_ancestors_when_closed_witness :
    MarksAncestors [⟨0, 1⟩, ⟨1, 2⟩, ⟨2, 3⟩] (buildBodyMap [⟨0, 1⟩, ⟨1, 2⟩, ⟨2, 3⟩]) 3 2
      ⟨[true, false, false], [0], [0]⟩ :=
  C4_walker_marks_ancestors_when_closed [⟨0, 1⟩, ⟨1, 2⟩, ⟨2, 3⟩] _ (buildBodyMap_valid _) 3 2
    ⟨[true, false, false], [0], [0]⟩ (by decide) (by decide) (by decide)
    (by
      intro j p hj hjp
      match j, hj, hjp with
      | 0, _, hjp =>
        have h0 : parentIndex [⟨0, 1⟩, ⟨1, 2⟩, ⟨2, 3⟩]
            (buildBodyMap [⟨0, 1⟩, ⟨1, 2⟩, ⟨2, 3⟩]) 0 = none := by decide
        rw [h0] at hjp
        cases hjp
      | 1, hj, _ => simp at hj
      | 2, hj, _ => simp at hj
      | j + 3, hj, _ => simp at hj)

/-- C5: the walker and the pass terminate on every joint set, cyclic or not.
Every call of the walker, whatever the map, comes to an end within one frame
per unmarked joint (hence within `N` nested frames), and gives the same outcome
with any larger allowance; the pass comes to an end with `N` frames allowed to
each call of the walker, and gives the same outcome with any larger allowance. -/
theorem C5_walker_and_pass_terminate (engine : Engine) (joints : List Joint) :
    (∀ (bodyMap : BodyMap) (fuel i : Nat) (s : PassState),
      1 ≤ fuel → s.hasProcessed.count false ≤ fuel →
      (addToSystemForOneJoint engine joints bodyMap fuel i s).fault? ≠ some .outOfFuel ∧
      ∀ fuel1, fuel ≤ fuel1 →
        addToSystemForOneJoint engine joints bodyMap fuel1 i s =
          addToSystemForOneJoint engine joints bodyMap fuel i s) ∧
    (∀ fuel, joints.length ≤ fuel →
      (invokeAddToSystemFuel engine joints fuel).fault? ≠ some .outOfFuel ∧
      invokeAddToSystemFuel engine joints fuel = invokeAddToSystem engine joints) := by
  refine ⟨?_, ?_⟩
  · intro bodyMap fuel i s h1 hc
    have hne := walker_fault_ne engine joints bodyMap fuel i s h1 hc
    exact ⟨hne, walker_fuel_le engine joints bodyMap fuel i s hne⟩
  · intro fuel hf
    exact ⟨driver_fault_ne engine joints fuel hf _ le_rfl,
      invokeFuel_eq_invoke engine joints fuel hf⟩

/-- Two joints each having the other's child body as parent body, and a third
whose parent body is its own child body: the walker called on joint 0 and the
pass both come to an end within three frames. -/
theorem C5_walker_and_pass_terminate_witness :
    ((addToSystemForOneJoint acceptAll [⟨2, 1⟩, ⟨1, 2⟩, ⟨3, 3⟩]
        (buildBodyMap [⟨2, 1⟩, ⟨1, 2⟩, ⟨3, 3⟩]) 3 0
        (initialState [⟨2, 1⟩, ⟨1, 2⟩, ⟨3, 3⟩])).fault? ≠ some .outOfFuel ∧
      ∀ fuel1, 3 ≤ fuel1 →
        addToSystemForOneJoint acceptAll [⟨2, 1⟩, ⟨1, 2⟩, ⟨3, 3⟩]
          (buildBodyMap [⟨2, 1⟩, ⟨1, 2⟩, ⟨3, 3⟩]) fuel1 0
          (initialState [⟨2, 1⟩, ⟨1, 2⟩, ⟨3, 3⟩]) =
        addToSystemForOneJoint acceptAll [⟨2, 1⟩, ⟨1, 2⟩, ⟨3, 3⟩]
          (buildBodyMap [⟨2, 1⟩, ⟨1, 2⟩, ⟨3, 3⟩]) 3 0
          (initialState [⟨2, 1⟩, ⟨1, 2⟩, ⟨3, 3⟩])) ∧
    ((invokeAddToSystemFuel acceptAll [⟨2, 1⟩, ⟨1, 2⟩, ⟨3, 3⟩] 3).fault? ≠ some .outOfFuel ∧
      invokeAddToSystemFuel acceptAll [⟨2, 1⟩, ⟨1, 2⟩, ⟨3, 3⟩] 3 =
        invokeAddToSystem acceptAll [⟨2, 1⟩, ⟨1, 2⟩, ⟨3, 3⟩]) :=
  ⟨(C5_walker_and_pass_terminate acceptAll [⟨2, 1⟩, ⟨1, 2⟩, ⟨3, 3⟩]).1 _ 3 0 _
      (by decide) (by decide),
   (C5_walker_and_pass_terminate acceptAll [⟨2, 1⟩, ⟨1, 2⟩, ⟨3, 3⟩]).2 3 (by decide)⟩

/-- C6, as stated, fails: with two joints each having the other's child body as
parent body, the walker is first called on joint 0, the map gives joint 1 for
the parent body of joint 0, and the registration calls are `[1, 0]`: joint 0,
the first-encountered member of the cycle, is registered after joint 1. -/
theorem C6_counterexample :
    ∃ s, invokeAddToSystem acceptAll [⟨2, 1⟩, ⟨1, 2⟩] = .returned s ∧
      FirstEncountered [⟨2, 1⟩, ⟨1, 2⟩] (buildBodyMap [⟨2, 1⟩, ⟨1, 2⟩]) s.walkerCalls 0 ∧
      ¬ RegisteredBeforeParent [⟨2, 1⟩, ⟨1, 2⟩] (buildBodyMap [⟨2, 1⟩, ⟨1, 2⟩])
        s.addToSystemCalls 0 := by
  have h01 : ParentStep [⟨2, 1⟩, ⟨1, 2⟩] (buildBodyMap [⟨2, 1⟩, ⟨1, 2⟩]) 0 1 := by
    show parentIndex _ _ 0 = some 1
    decide
  have h10 : ParentStep [⟨2, 1⟩, ⟨1, 2⟩] (buildBodyMap [⟨2, 1⟩, ⟨1, 2⟩]) 1 0 := by
    show parentIndex _ _ 1 = some 0
    decide
  refine ⟨⟨[true, true], [0, 1, 1], [1, 0]⟩, by decide, ⟨?_, by decide, ?_⟩, ?_⟩
  · exact Relation.TransGen.head h01 (Relation.TransGen.single h10)
  · intro y _
    have h0 : List.indexOf 0 [0, 1, 1] = 0 := by decide
    show List.indexOf 0 [0, 1, 1] ≤ _
    rw [h0]
    exact Nat.zero_le _
  · rintro ⟨p, hp, _, _, hlt⟩
    have hp1 : parentIndex [⟨2, 1⟩, ⟨1, 2⟩] (buildBodyMap [⟨2, 1⟩, ⟨1, 2⟩]) 0 = some 1 := h01
    rw [hp1] at hp
    cases hp
    revert hlt
    decide

/-- C6, amended: when the parent-body references contain a cycle, the
first-encountered member `x` of the cycle (there is one) is the last of its
members to be registered: every other member of the cycle is registered before
`x`, among them the joint the map gives for the parent body of `x`; and the
member registered before its own parent is the one whose parent, by the map,
is `x`. -/
theorem C6_first_encountered_registered_last (joints : List Joint) (s : PassState)
    (hs : invokeAddToSystem acceptAll joints = .returned s) :
    (∀ x0, OnCycle joints (buildBodyMap joints) x0 →
      ∃ x, Relation.ReflTransGen (ParentStep joints (buildBodyMap joints)) x0 x ∧
        FirstEncountered joints (buildBodyMap joints) s.walkerCalls x) ∧
    ∀ x, FirstEncountered joints (buildBodyMap joints) s.walkerCalls x →
      (∀ y, Relation.ReflTransGen (ParentStep joints (buildBodyMap joints)) x y → y ≠ x →
        y ∈ s.addToSystemCalls ∧ x ∈ s.addToSystemCalls ∧
        s.addToSystemCalls.indexOf y < s.addToSystemCalls.indexOf x) ∧
      (∀ p, parentIndex joints (buildBodyMap joints) x = some p → p ≠ x →
        s.addToSystemCalls.indexOf p < s.addToSystemCalls.indexOf x) ∧
      (∀ z, Relation.ReflTransGen (ParentStep joints (buildBodyMap joints)) x z →
        parentIndex joints (buildBodyMap joints) z = some x → z ≠ x →
        RegisteredBeforeParent joints (buildBodyMap joints) s.addToSystemCalls z) := by
  refine ⟨fun x0 h0 =>
    exists_first_encountered joints (joints.length + 1) (by omega) s hs x0 h0, ?_⟩
  intro x hx
  have key := first_encountered_last joints (joints.length + 1) (by omega) s hs x hx.2.1 hx.2.2
  refine ⟨key, ?_, ?_⟩
  · intro p hp hne
    exact (key p (Relation.ReflTransGen.single hp) hne).2.2
  · intro z hz hzx hne
    obtain ⟨h1, h2, h3⟩ := key z hz hne
    exact ⟨x, hzx, h1, h2, h3⟩

/-- Two joints each having the other's child body as parent body: joint 0 is
the first-encountered member of the cycle, and joint 1, whose parent by the map
is joint 0, is registered before it. -/
theorem C6_first_encountered_registered_last_witness :
    FirstEncountered [⟨2, 1⟩, ⟨1, 2⟩] (buildBodyMap [⟨2, 1⟩, ⟨1, 2⟩]) [0, 1, 1] 0 ∧
    RegisteredBeforeParent [⟨2, 1⟩, ⟨1, 2⟩] (buildBodyMap [⟨2, 1⟩, ⟨1, 2⟩]) [1, 0] 1 := by
  have h01 : ParentStep [⟨2, 1⟩, ⟨1, 2⟩] (buildBodyMap [⟨2, 1⟩, ⟨1, 2⟩]) 0 1 := by
    show parentIndex _ _ 0 = some 1
    decide
  have h10 : ParentStep [⟨2, 1⟩, ⟨1, 2⟩] (buildBodyMap [⟨2, 1⟩, ⟨1, 2⟩]) 1 0 := by
    show parentIndex _ _ 1 = some 0
    decide
  have hfirst : FirstEncountered [⟨2, 1⟩, ⟨1, 2⟩] (buildBodyMap [⟨2, 1⟩, ⟨1, 2⟩])
      [0, 1, 1] 0 := by
    refine ⟨Relation.TransGen.head h01 (Relation.TransGen.single h10), by decide, ?_⟩
    intro y _
    have h0 : List.indexOf 0 [0, 1, 1] = 0 := by decide
    rw [h0]
    exact Nat.zero_le _
  exact ⟨hfirst,
    ((C6_first_encountered_registered_last [⟨2, 1⟩, ⟨1, 2⟩] ⟨[true, true], [0, 1, 1], [1, 0]⟩
      (by decide)).2 0 hfirst).2.2 1 (Relation.ReflTransGen.single h01) h10 (by decide)⟩

/-- C7: on an index already marked the walker returns at once: no joint is
registered, the visitation vector is unchanged, and the only trace is the call
itself. Consequently a second call of the walker on the same index, right after
a first one that returned, registers nothing and changes no mark. -/
theorem C7_walker_idempotent (engine : Engine) (joints : List Joint) (bodyMap : BodyMap)
    (fuel i : Nat) (s : PassState) (hi : s.hasProcessed[i]? = some true) :
    addToSystemForOneJoint engine joints bodyMap (fuel + 1) i s =
      .returned ⟨s.hasProcessed, s.walkerCalls ++ [i], s.addToSystemCalls⟩ ∧
    (∀ s0 s1, addToSystemForOneJoint engine joints bodyMap (fuel + 1) i s0 = .returned s1 →
      addToSystemForOneJoint engine joints bodyMap (fuel + 1) i s1 =
        .returned ⟨s1.hasProcessed, s1.walkerCalls ++ [i], s1.addToSystemCalls⟩) := by
  refine ⟨walker_visited _ _ _ _ _ _ _ _ hi, ?_⟩
  intro s0 s1 h
  exact walker_visited _ _ _ _ _ _ _ _ ((walker_marks engine joints bodyMap _ _ s0).2 s1 h)

/-- The chain Ground-J0-J1 after joint 0 has been registered: a call of the
walker on joint 0 registers nothing. -/
theorem C7_walker_idempotent_witness :
    addToSystemForOneJoint acceptAll [⟨0, 1⟩, ⟨1, 2⟩] (buildBodyMap [⟨0, 1⟩, ⟨1, 2⟩]) (1 + 1) 0
        ⟨[true, false], [0], [0]⟩ =
      .returned ⟨[true, false], [0] ++ [0], [0]⟩ ∧
    (∀ s0 s1, addToSystemForOneJoint acceptAll [⟨0, 1⟩, ⟨1, 2⟩]
        (buildBodyMap [⟨0, 1⟩, ⟨1, 2⟩]) (1 + 1) 0 s0 = .returned s1 →
      addToSystemForOneJoint acceptAll [⟨0, 1⟩, ⟨1, 2⟩]
        (buildBodyMap [⟨0, 1⟩, ⟨1, 2⟩]) (1 + 1) 0 s1 =
        .returned ⟨s1.hasProcessed, s1.walkerCalls ++ [0], s1.addToSystemCalls⟩) :=
  C7_walker_idempotent acceptAll [⟨0, 1⟩, ⟨1, 2⟩] (buildBodyMap [⟨0, 1⟩, ⟨1, 2⟩]) 1 0
    ⟨[true, false], [0], [0]⟩ (by decide)

/-- C8: the map built from a joint set has an entry for body `b` exactly when
`b` is the child body of some joint of the set; the entry is then an index of
the set whose joint has child body `b`, and the largest such index; when child
bodies are pairwise distinct, the entry for the child body of joint `i` is `i`. -/
theorem C8_bodyMap_entries (joints : List Joint) (b : Body) :
    ((∃ p, (buildBodyMap joints).find b = some p) ↔
      ∃ (i : Nat) (J : Joint), joints[i]? = some J ∧ J.body = b) ∧
    (∀ p, (buildBodyMap joints).find b = some p →
      p < joints.length ∧ (∃ J, joints[p]? = some J ∧ J.body = b) ∧
      ∀ (i : Nat) (J : Joint), joints[i]? = some J → J.body = b → i ≤ p) ∧
    (UniqueChildBodies joints → ∀ (i : Nat) (J : Joint), joints[i]? = some J →
      (buildBodyMap joints).find J.body = some i) := by
  refine ⟨?_, ?_, ?_⟩
  · constructor
    · rintro ⟨p, hp⟩
      obtain ⟨⟨J, hJ, hb⟩, _⟩ := (buildBodyMap_eq_some_iff joints b p).1 hp
      exact ⟨p, J, hJ, hb⟩
    · rintro ⟨i, J, hJ, hb⟩
      cases h : (buildBodyMap joints).find b with
      | some p => exact ⟨p, rfl⟩
      | none =>
        exact absurd hb ((buildBodyMap_find_eq_none_iff joints b).1 h J (List.getElem?_mem hJ))
  · intro p hp
    obtain ⟨⟨J, hJ, hb⟩, hlast⟩ := (buildBodyMap_eq_some_iff joints b p).1 hp
    refine ⟨getElem?_lt_length hJ, ⟨J, hJ, hb⟩, ?_⟩
    intro i J1 hJ1 hb1
    by_contra hcon
    exact hlast i J1 (by omega) hJ1 hb1
  · intro hu i J hJ
    rw [buildBodyMap_eq_some_iff]
    refine ⟨⟨J, hJ, rfl⟩, ?_⟩
    intro j J1 hj hJ1 hb
    have hilt : i < (joints.map (fun j => j.body)).length := by
      rw [List.length_map]
      exact getElem?_lt_length hJ
    have : i = j := by
      apply List.getElem?_inj hilt hu
      rw [List.getElem?_map, List.getElem?_map, hJ, hJ1]
      simp [hb]
    omega

/-- Joints 0 and 2 both have child body 5: the entry for body 5 is 2; the
child bodies of `[J0, J1]` alone are distinct and each is mapped to its joint. -/
theorem C8_bodyMap_entries_witness :
    (buildBodyMap [⟨0, 5⟩, ⟨5, 6⟩, ⟨0, 5⟩]).find 5 = some 2 ∧
    (2 < [(⟨0, 5⟩ : Joint), ⟨5, 6⟩, ⟨0, 5⟩].length ∧
      (∃ J, [(⟨0, 5⟩ : Joint), ⟨5, 6⟩, ⟨0, 5⟩][2]? = some J ∧ J.body = 5) ∧
      ∀ (i : Nat) (J : Joint),
        [(⟨0, 5⟩ : Joint), ⟨5, 6⟩, ⟨0, 5⟩][i]? = some J → J.body = 5 → i ≤ 2) ∧
    UniqueChildBodies [⟨0, 5⟩, ⟨5, 6⟩] ∧
    (buildBodyMap [⟨0, 5⟩, ⟨5, 6⟩]).find (⟨5, 6⟩ : Joint).body = some 1 :=
  ⟨by decide,
   (C8_bodyMap_entries [⟨0, 5⟩, ⟨5, 6⟩, ⟨0, 5⟩] 5).2.1 2 (by decide),
   by unfold UniqueChildBodies; decide,
   (C8_bodyMap_entries [⟨0, 5⟩, ⟨5, 6⟩] 6).2.2 (by unfold UniqueChildBodies; decide) 1 ⟨5, 6⟩
     (by decide)⟩

/-- C9: registration may fail. Let the failure-free pass make the calls
`pre ++ k :: post`, and let the engine accept the calls of `pre` and reject the
call of joint `k` that follows them (the first registration to fail). Then the
pass raises that failure, `registrationFailure k`, and the calls it has made are
`pre ++ [k]`: the calls of the failure-free pass up to and including `k`, none
of them undone, and none after `k`. -/
theorem C9_first_failure_aborts_pass (engine : Engine) (joints : List Joint)
    (sT : PassState) (hT : invokeAddToSystem acceptAll joints = .returned sT)
    (pre : List Nat) (k : Nat) (post : List Nat)
    (hsplit : sT.addToSystemCalls = pre ++ k :: post)
    (hacc : Accepted engine pre) (hrej : engine pre k = false) :
    ∃ s, invokeAddToSystem engine joints = .threw (.registrationFailure k) s ∧
      s.addToSystemCalls = pre ++ [k] ∧
      sT.addToSystemCalls = s.addToSystemCalls ++ post := by
  obtain ⟨s, h1, h2⟩ := pass_first_failure engine joints sT hT pre k post hsplit hacc hrej
  refine ⟨s, h1, h2, ?_⟩
  rw [h2, hsplit]
  simp

/-- The chain Ground-J0-J1-J2 stored as `[J2, J0, J1]`, on an engine that
accepts one registration only: the failure-free calls are `[1, 2, 0]`, the call
of joint 2 fails, and the calls made are `[1, 2]`. -/
theorem C9_first_failure_aborts_pass_witness :
    ∃ s, invokeAddToSystem (fun log _ => decide (log.length < 1))
        [⟨2, 3⟩, ⟨0, 1⟩, ⟨1, 2⟩] = .threw (.registrationFailure 2) s ∧
      s.addToSystemCalls = [1] ++ [2] ∧
      (⟨[true, true, true], [0, 2, 1, 1, 2], [1, 2, 0]⟩ : PassState).addToSystemCalls =
        s.addToSystemCalls ++ [0] :=
  C9_first_failure_aborts_pass (fun log _ => decide (log.length < 1))
    [⟨2, 3⟩, ⟨0, 1⟩, ⟨1, 2⟩] ⟨[true, true, true], [0, 2, 1, 1, 2], [1, 2, 0]⟩ (by decide)
    [1] 2 [0] rfl
    (by
      intro p1 y p2 h
      cases p1 with
      | nil => rfl
      | cons a t => simp at h)
    (by decide)

/-- C10: ground base case. On an unmarked joint `i` whose parent body has no
entry in the map, the walker marks `i`, makes the one registration call of
joint `i` and no call of itself (one frame is enough, and the log of walker
calls grows by `i` alone); when the call is accepted it returns. In particular
a set of one joint directly off ground is registered as `[J0]`, by one call of
the walker. -/
theorem C10_ground_base_case (engine : Engine) (joints : List Joint) (bodyMap : BodyMap)
    (fuel i : Nat) (s : PassState) (J : Joint) (hi : s.hasProcessed[i]? = some false)
    (hJ : joints[i]? = some J) (hground : bodyMap.find J.parentBody = none) :
    addToSystemForOneJoint engine joints bodyMap (fuel + 1) i s =
      addToSystem engine i ⟨s.hasProcessed.set i true, s.walkerCalls ++ [i],
        s.addToSystemCalls⟩ ∧
    addToSystemForOneJoint acceptAll joints bodyMap (fuel + 1) i s =
      .returned ⟨s.hasProcessed.set i true, s.walkerCalls ++ [i],
        s.addToSystemCalls ++ [i]⟩ ∧
    (∀ J0 : Joint, J0.parentBody ≠ J0.body →
      invokeAddToSystemFuel acceptAll [J0] 1 = .returned ⟨[true], [0], [0]⟩ ∧
      invokeAddToSystem acceptAll [J0] = .returned ⟨[true], [0], [0]⟩) := by
  refine ⟨?_, ?_, ?_⟩
  · simp [addToSystemForOneJoint, hi, hJ, hground, Outcome.andThen]
  · simp [addToSystemForOneJoint, hi, hJ, hground, Outcome.andThen, addToSystem, acceptAll]
  · intro J0 hne
    have hm : (buildBodyMap [J0]).find J0.parentBody = none := by
      simp [buildBodyMap, buildBodyMapFrom, BodyMap.find, BodyMap.assign, BodyMap.empty, hne]
    have key : ∀ f, driverUpTo acceptAll [J0] (f + 1) 1 = .returned ⟨[true], [0], [0]⟩ := by
      intro f
      rw [driverUpTo_succ, driverUpTo_zero]
      simp [initialState, Outcome.andThen, addToSystemForOneJoint, hm, addToSystem, acceptAll]
    exact ⟨key 0, key 1⟩

/-- The chain Ground-J0-J1 stored in that order, nothing marked: the walker
called on joint 0 registers joint 0 and calls nothing else. -/
theorem C10_ground_base_case_witness :
    addToSystemForOneJoint acceptAll [⟨0, 1⟩, ⟨1, 2⟩] (buildBodyMap [⟨0, 1⟩, ⟨1, 2⟩]) (0 + 1) 0
        ⟨[false, false], [], []⟩ =
      .returned ⟨[true, false], [0], [0]⟩ :=
  (C10_ground_base_case acceptAll [⟨0, 1⟩, ⟨1, 2⟩] (buildBodyMap [⟨0, 1⟩, ⟨1, 2⟩]) 0 0
    ⟨[false, false], [], []⟩ ⟨0, 1⟩ (by decide) (by decide) (by decide)).2.1

/-- C11: called on an unmarked index `i` (the map having indices of the set
as entries), the walker registers exactly the joints `a_k, ..., a_1, a_0`, in
that order, of the ascent `ch = [a_0, ..., a_k]`: `a_0 = i`, each `a_(j+1)` is
the map's entry for the parent body of `a_j`, every joint of the ascent was
unmarked before the call and occurs once, and the ascent ends at a joint whose
parent body has no entry or whose entry is marked, before the call or as a
joint of the ascent itself. The joints of the ascent are the joints marked and
the joints the walker is called on, from `i` upwards. On an engine that may
reject a call, the same registrations are attempted, in the same order, until
one fails. -/
theorem C11_walker_registers_ascent (joints : List Joint) (bodyMap : BodyMap)
    (hv : ValidMap joints bodyMap) (fuel i : Nat) (hp : List Bool) (wc rc : List Nat)
    (hlen : hp.length = joints.length) (hi : hp[i]? = some false)
    (hc : hp.count false ≤ fuel) :
    ∃ ch, ch = ascent joints bodyMap fuel i hp ∧
      addToSystemForOneJoint acceptAll joints bodyMap fuel i ⟨hp, wc, rc⟩ =
        .returned ⟨markAll hp ch, wc ++ ch, rc ++ ch.reverse⟩ ∧
      (∀ engine, addToSystemForOneJoint engine joints bodyMap fuel i ⟨hp, wc, rc⟩ =
        registerAll engine ch.reverse ⟨markAll hp ch, wc ++ ch, rc⟩) ∧
      ch.head? = some i ∧
      List.Chain' (ParentStep joints bodyMap) ch ∧
      ch.Nodup ∧
      (∀ j ∈ ch, hp[j]? = some false) ∧
      (∀ l, ch.getLast? = some l →
        parentIndex joints bodyMap l = none ∨
        ∃ p, parentIndex joints bodyMap l = some p ∧ (hp[p]? = some true ∨ p ∈ ch)) := by
  obtain ⟨⟨t, ht⟩, h2, h3, h4, h5⟩ := ascent_spec joints bodyMap hv fuel i hp hlen hi hc
  refine ⟨_, rfl, walker_acceptAll_unvisited joints bodyMap hv fuel i hp wc rc hlen hi hc,
    fun engine => walker_eq_registerAll engine joints bodyMap hv fuel i hp wc rc hlen hi hc,
    ?_, h4, h3, h2, h5⟩
  rw [ht]
  rfl

/-- The chain Ground-J0-J1-J2 stored as `[J2, J0, J1]`, nothing marked: the
walker called on index 0 (J2) ascends through indices 0, 2, 1 and registers
1, 2, 0. -/
theorem C11_walker_registers_ascent_witness :
    ∃ ch, ch = ascent [⟨2, 3⟩, ⟨0, 1⟩, ⟨1, 2⟩] (buildBodyMap [⟨2, 3⟩, ⟨0, 1⟩, ⟨1, 2⟩]) 3 0
        [false, false, false] ∧
      addToSystemForOneJoint acceptAll [⟨2, 3⟩, ⟨0, 1⟩, ⟨1, 2⟩]
          (buildBodyMap [⟨2, 3⟩, ⟨0, 1⟩, ⟨1, 2⟩]) 3 0 ⟨[false, false, false], [], []⟩ =
        .returned ⟨markAll [false, false, false] ch, [] ++ ch, [] ++ ch.reverse⟩ ∧
      (∀ engine, addToSystemForOneJoint engine [⟨2, 3⟩, ⟨0, 1⟩, ⟨1, 2⟩]
          (buildBodyMap [⟨2, 3⟩, ⟨0, 1⟩, ⟨1, 2⟩]) 3 0 ⟨[false, false, false], [], []⟩ =
        registerAll engine ch.reverse ⟨markAll [false, false, false] ch, [] ++ ch, []⟩) ∧
      ch.head? = some 0 ∧
      List.Chain' (ParentStep [⟨2, 3⟩, ⟨0, 1⟩, ⟨1, 2⟩]
        (buildBodyMap [⟨2, 3⟩, ⟨0, 1⟩, ⟨1, 2⟩])) ch ∧
      ch.Nodup ∧
      (∀ j ∈ ch, [false, false, false][j]? = some false) ∧
      (∀ l, ch.getLast? = some l →
        parentIndex [⟨2, 3⟩, ⟨0, 1⟩, ⟨1, 2⟩] (buildBodyMap [⟨2, 3⟩, ⟨0, 1⟩, ⟨1, 2⟩]) l = none ∨
        ∃ p, parentIndex [⟨2, 3⟩, ⟨0, 1⟩, ⟨1, 2⟩]
            (buildBodyMap [⟨2, 3⟩, ⟨0, 1⟩, ⟨1, 2⟩]) l = some p ∧
          ([false, false, false][p]? = some true ∨ p ∈ ch)) :=
  C11_walker_registers_ascent [⟨2, 3⟩, ⟨0, 1⟩, ⟨1, 2⟩] _ (buildBodyMap_valid _) 3 0
    [false, false, false] [] [] (by decide) (by decide) (by decide)

/-- C12: invariant of the driver loop, for every joint set. The top-level call
of the walker on index `k` returns when no registration fails; and whenever it
has returned, on whatever engine, a joint is marked in `hasProcessed` exactly
when it occurs in the log of registration calls, it occurs there once, and
every joint of index at most `k` is marked. -/
theorem C12_driver_loop_invariant (joints : List Joint) (fuel : Nat)
    (hf : joints.length ≤ fuel) (k : Nat) (hk : k < joints.length) :
    (∃ s, driverUpTo acceptAll joints fuel (k + 1) = .returned s) ∧
    ∀ (engine : Engine) (s : PassState),
      driverUpTo engine joints fuel (k + 1) = .returned s →
      (∀ j : Nat, s.hasProcessed[j]? = some true ↔ j ∈ s.addToSystemCalls) ∧
      (∀ j, j ∈ s.addToSystemCalls → s.addToSystemCalls.count j = 1) ∧
      (∀ j : Nat, j ≤ k → s.hasProcessed[j]? = some true) := by
  constructor
  · obtain ⟨s, hs, _⟩ := driver_inv joints fuel hf (k + 1) (by omega)
    exact ⟨s, hs⟩
  · intro engine s hs
    have hT := driver_returned_eq engine joints fuel hf (k + 1) (by omega) s hs
    have inv := driver_inv_of_eq joints fuel hf (k + 1) (by omega) hT
    refine ⟨inv.marked_iff, ?_, ?_⟩
    · intro j hj
      exact List.count_eq_one_of_mem inv.nodup hj
    · intro j hj
      exact (inv.marked_iff j).2 (inv.upTo j (by omega))

/-- The chain Ground-J0-J1-J2 stored as `[J2, J0, J1]`: after the first
iteration of the driver loop (`k = 0`) all three joints are marked and
registered, once each. -/
theorem C12_driver_loop_invariant_witness :
    (∃ s, driverUpTo acceptAll [⟨2, 3⟩, ⟨0, 1⟩, ⟨1, 2⟩] 3 (0 + 1) = .returned s) ∧
    ∀ (engine : Engine) (s : PassState),
      driverUpTo engine [⟨2, 3⟩, ⟨0, 1⟩, ⟨1, 2⟩] 3 (0 + 1) = .returned s →
      (∀ j : Nat, s.hasProcessed[j]? = some true ↔ j ∈ s.addToSystemCalls) ∧
      (∀ j, j ∈ s.addToSystemCalls → s.addToSystemCalls.count j = 1) ∧
      (∀ j : Nat, j ≤ 0 → s.hasProcessed[j]? = some true) :=
  C12_driver_loop_invariant [⟨2, 3⟩, ⟨0, 1⟩, ⟨1, 2⟩] 3 (by decide) 0 (by decide)

/-- C13: index safety, for every joint set, engine and allowance of frames.
Every entry of the map built by the pass is an index of the set; hence a call
of the walker on an index of the set, with a visitation vector of the size of
the set, never goes out of range, and neither does the driver loop at any of
its iterations, nor the pass. -/
theorem C13_index_safety (engine : Engine) (joints : List Joint) (fuel : Nat) :
    ValidMap joints (buildBodyMap joints) ∧
    (∀ (i : Nat) (s : PassState), s.hasProcessed.length = joints.length →
      i < joints.length →
      (addToSystemForOneJoint engine joints (buildBodyMap joints) fuel i s).fault? ≠
        some .outOfRange) ∧
    (∀ k, k ≤ joints.length →
      (driverUpTo engine joints fuel k).fault? ≠ some .outOfRange) ∧
    (invokeAddToSystemFuel engine joints fuel).fault? ≠ some .outOfRange ∧
    (invokeAddToSystem engine joints).fault? ≠ some .outOfRange :=
  ⟨buildBodyMap_valid joints,
   walker_fault_ne_range engine joints _ (buildBodyMap_valid joints) fuel,
   driver_fault_ne_range engine joints fuel,
   driver_fault_ne_range engine joints fuel _ le_rfl,
   driver_fault_ne_range engine joints _ _ le_rfl⟩

/-- A set with a cycle (joints 0 and 1), a joint that is its own parent, and a
second claimant of body 3: the walker called on index 3, in the middle of a
pass, stays in range. -/
theorem C13_index_safety_witness :
    (addToSystemForOneJoint acceptAll [⟨2, 1⟩, ⟨1, 2⟩, ⟨3, 3⟩, ⟨1, 3⟩]
      (buildBodyMap [⟨2, 1⟩, ⟨1, 2⟩, ⟨3, 3⟩, ⟨1, 3⟩]) 4 3
      ⟨[true, true, false, false], [0, 1, 1], [1, 0]⟩).fault? ≠ some .outOfRange :=
  (C13_index_safety acceptAll [⟨2, 1⟩, ⟨1, 2⟩, ⟨3, 3⟩, ⟨1, 3⟩] 4).2.1 3
    ⟨[true, true, false, false], [0, 1, 1], [1, 0]⟩ (by decide) (by decide)

/-- C14: when the storage order is already ground-outward (for every joint the
map has no entry for its parent body, or an entry strictly smaller than the
index of the joint), the pass registers the joints in storage order
`0, 1, ..., N - 1`, and the walker never calls itself: the walker is called `N`
times, once by each iteration of the driver loop, and one frame is enough. -/
theorem C14_ground_outward_storage (joints : List Joint)
    (hord : ∀ i p, parentIndex joints (buildBodyMap joints) i = some p → p < i) :
    invokeAddToSystem acceptAll joints =
      .returned ⟨List.replicate joints.length true, List.range joints.length,
        List.range joints.length⟩ ∧
    invokeAddToSystemFuel acceptAll joints 1 = invokeAddToSystem acceptAll joints := by
  have key : ∀ f, driverUpTo acceptAll joints (f + 1) joints.length =
      .returned ⟨List.replicate joints.length true, List.range joints.length,
        List.range joints.length⟩ := by
    intro f
    obtain ⟨hp, hs, hlen, hmarks⟩ := driver_ground_outward joints f hord joints.length le_rfl
    have hall : hp = List.replicate joints.length true := by
      rw [List.eq_replicate_iff]
      refine ⟨hlen, ?_⟩
      intro b hb
      obtain ⟨n, hn⟩ := List.mem_iff_getElem?.1 hb
      have hlt : n < joints.length := by
        rw [← hlen]
        exact getElem?_lt_length hn
      rw [hmarks n hlt] at hn
      simpa [hlt] using hn.symm
    rw [hs, hall]
  have h1 : invokeAddToSystem acceptAll joints =
      .returned ⟨List.replicate joints.length true, List.range joints.length,
        List.range joints.length⟩ := key joints.length
  refine ⟨h1, ?_⟩
  rw [h1]
  exact key 0

/-- The chain Ground-J0-J1-J2 stored in that order is registered as
`[0, 1, 2]`, by three calls of the walker. -/
theorem C14_ground_outward_storage_witness :
    invokeAddToSystem acceptAll [⟨0, 1⟩, ⟨1, 2⟩, ⟨2, 3⟩] =
      .returned ⟨List.replicate [(⟨0, 1⟩ : Joint), ⟨1, 2⟩, ⟨2, 3⟩].length true,
        List.range [(⟨0, 1⟩ : Joint), ⟨1, 2⟩, ⟨2, 3⟩].length,
        List.range [(⟨0, 1⟩ : Joint), ⟨1, 2⟩, ⟨2, 3⟩].length⟩ ∧
    invokeAddToSystemFuel acceptAll [⟨0, 1⟩, ⟨1, 2⟩, ⟨2, 3⟩] 1 =
      invokeAddToSystem acceptAll [⟨0, 1⟩, ⟨1, 2⟩, ⟨2, 3⟩] :=
  C14_ground_outward_storage [⟨0, 1⟩, ⟨1, 2⟩, ⟨2, 3⟩] (by
    intro i p h
    match i, h with
    | 0, h =>
      have h0 : parentIndex [⟨0, 1⟩, ⟨1, 2⟩, ⟨2, 3⟩]
          (buildBodyMap [⟨0, 1⟩, ⟨1, 2⟩, ⟨2, 3⟩]) 0 = none := by decide
      rw [h0] at h
      cases h
    | 1, h =>
      have h0 : parentIndex [⟨0, 1⟩, ⟨1, 2⟩, ⟨2, 3⟩]
          (buildBodyMap [⟨0, 1⟩, ⟨1, 2⟩, ⟨2, 3⟩]) 1 = some 0 := by decide
      rw [h0] at h
      cases h
      decide
    | 2, h =>
      have h0 : parentIndex [⟨0, 1⟩, ⟨1, 2⟩, ⟨2, 3⟩]
          (buildBodyMap [⟨0, 1⟩, ⟨1, 2⟩, ⟨2, 3⟩]) 2 = some 1 := by decide
      rw [h0] at h
      cases h
      decide
    | i + 3, h => simp [parentIndex] at h)

/-- C15: the ordering guarantee needs child bodies to be distinct. In the
acyclic set `[J, Ja, Jb]`, where `Ja` and `Jb` both have child body 1 off ground
and `J` has parent body 1, the map keeps `Jb` alone for body 1, the calls are
`[Jb, J, Ja]`, and `Ja`, a parent of `J`, is registered after `J`; so the
statement "a parent is registered before its child" fails for acyclic sets in
general. -/
theorem C15_unique_child_bodies_needed :
    Acyclic [⟨1, 2⟩, ⟨0, 1⟩, ⟨0, 1⟩] ∧
    ¬ UniqueChildBodies [⟨1, 2⟩, ⟨0, 1⟩, ⟨0, 1⟩] ∧
    ParentJoint [⟨1, 2⟩, ⟨0, 1⟩, ⟨0, 1⟩] 0 1 ∧
    ParentJoint [⟨1, 2⟩, ⟨0, 1⟩, ⟨0, 1⟩] 0 2 ∧
    (buildBodyMap [⟨1, 2⟩, ⟨0, 1⟩, ⟨0, 1⟩]).find 1 = some 2 ∧
    invokeAddToSystem acceptAll [⟨1, 2⟩, ⟨0, 1⟩, ⟨0, 1⟩] =
      .returned ⟨[true, true, true], [0, 2, 1, 2], [2, 0, 1]⟩ ∧
    List.indexOf 0 [2, 0, 1] < List.indexOf 1 [2, 0, 1] ∧
    ¬ (∀ joints : List Joint, Acyclic joints → ∀ J P, ParentJoint joints J P →
      ∃ s, invokeAddToSystem acceptAll joints = .returned s ∧
        s.addToSystemCalls.indexOf P < s.addToSystemCalls.indexOf J) := by
  have hacyc : Acyclic [⟨1, 2⟩, ⟨0, 1⟩, ⟨0, 1⟩] :=
    acyclic_of_rank _ (fun j => [1, 0, 0].getD j 0) (by decide)
  have hrun : invokeAddToSystem acceptAll [⟨1, 2⟩, ⟨0, 1⟩, ⟨0, 1⟩] =
      .returned ⟨[true, true, true], [0, 2, 1, 2], [2, 0, 1]⟩ := by decide
  refine ⟨hacyc, by unfold UniqueChildBodies; decide, by decide, by decide, by decide, hrun,
    by decide, ?_⟩
  intro hall
  obtain ⟨s, hs, hlt⟩ := hall _ hacyc 0 1 (by decide)
  rw [hrun] at hs
  cases hs
  revert hlt
  decide

end JointSet
